import Mathlib

/-!
# ThinkFlowAI — formal verification of the core graph/pipeline spec

Shallow embedding of the ThinkFlowAI core (`src/composables/useThinkFlow.ts`
and the cloud-sync composable) in Lean 4, together with proofs of the spec's
testable properties.

Conventions:
* Canvas coordinates (IEEE doubles in the source) are modelled as exact
  rationals `ℚ`; the properties proved are about the exact arithmetic the
  source performs.
* JavaScript `Set`/`Map` values are modelled as duplicate-free lists /
  association lists.
* Strings are modelled as `List Char` where character-level scanning is
  needed (regex passes, JSON parsing) and as `String` elsewhere.
-/

namespace ThinkFlow

/-- Canvas position `{x, y}`. -/
structure Pos where
  x : ℚ
  y : ℚ
deriving DecidableEq, Repr

/-- Rendered node size (from `node.dimensions` / `node.measured`). -/
structure Dim where
  width : ℚ
  height : ℚ
deriving DecidableEq, Repr

/-- The `data` payload of a canvas node (the fields the source reads/writes).
`||`-defaulting in the source (`node.data?.label || ""` etc.) makes an absent
field behave exactly like the default value, so fields are modelled total. -/
structure NodeData where
  label : String := ""
  title : String := ""
  description : String := ""
  detailedContent : String := ""
  imageUrl : String := ""
  childrenCount : Int := 0
  isExpanding : Bool := false
  followUp : String := ""
  type : String := ""
  error : Option String := none
  isImageLoading : Bool := false
  isTitleExpanded : Bool := false
  isDetailExpanded : Bool := false
  isGeneratingQuestions : Bool := false
  fullLabel : String := ""
  reasoningContent : String := ""
  hiddenDescendantCount : Int := 0
deriving DecidableEq, Repr

/-- A canvas node. -/
structure Node where
  id : String
  type : String := "window"
  position : Pos
  data : NodeData
  hidden : Bool := false
  selected : Bool := false
  dimensions : Option Dim := none
  measured : Option Dim := none
deriving DecidableEq, Repr

/-- Edge `style` (the persisted part: stroke color and width). -/
structure EdgeStyle where
  stroke : String := ""
  strokeWidth : Int := 2
deriving DecidableEq, Repr

/-- A canvas edge. -/
structure Edge where
  id : String
  source : String
  target : String
  animated : Bool := true
  type : String := "smoothstep"
  style : EdgeStyle := {}
  hidden : Bool := false
deriving DecidableEq, Repr

/-- The canonical node/edge collection held by the graph store. -/
structure Graph where
  nodes : List Node
  edges : List Edge
deriving DecidableEq, Repr

/-!
## Descendant traversal (`getDescendantIds`, useThinkFlow.ts lines 574-591)

The source keeps a JS `Set` of descendants and an array used as a LIFO stack
(`push`/`pop` at the array end).  We model the set as a duplicate-free list
(new elements consed to the front) and the stack as a list whose head is the
top, which gives the same pop order.
-/

/-- One pass of the inner `for (const edge of edges)` loop of
`getDescendantIds`: for every edge leaving `currentId` whose target has not
been visited, record the target as a descendant and push it on the stack. -/
def processEdges (currentId : String) :
    List Edge → List String × List String → List String × List String
  | [], st => st
  | e :: es, (desc, stack) =>
    if e.source = currentId ∧ e.target ∉ desc then
      processEdges currentId es (e.target :: desc, e.target :: stack)
    else
      processEdges currentId es (desc, stack)

/-- Distinct edge targets not yet visited; the traversal's termination
measure counts these. -/
def missingTargets (edges : List Edge) (desc : List String) : Finset String :=
  (edges.map Edge.target).toFinset.filter (· ∉ desc)

theorem processEdges_spec (currentId : String) (es : List Edge)
    (desc stack : List String) :
    ∃ new : List String,
      (processEdges currentId es (desc, stack)).1 = new ++ desc ∧
      (processEdges currentId es (desc, stack)).2 = new ++ stack ∧
      new.Nodup ∧
      (∀ x ∈ new, x ∉ desc ∧ ∃ e ∈ es, e.source = currentId ∧ e.target = x) := by
  induction es generalizing desc stack with
  | nil => exact ⟨[], rfl, rfl, List.nodup_nil, by simp⟩
  | cons e es ih =>
    by_cases h : e.source = currentId ∧ e.target ∉ desc
    · obtain ⟨new, h1, h2, hnd, hmem⟩ := ih (e.target :: desc) (e.target :: stack)
      refine ⟨new ++ [e.target], ?_, ?_, ?_, ?_⟩
      · simpa [processEdges, h, List.append_assoc] using h1
      · simpa [processEdges, h, List.append_assoc] using h2
      · refine List.Nodup.append hnd (List.nodup_singleton _) ?_
        intro x hx hx'
        have h' := List.mem_singleton.mp hx'
        exact (hmem x hx).1 (by rw [h']; exact List.mem_cons_self _ _)
      · intro x hx
        rcases List.mem_append.mp hx with hx | hx
        · obtain ⟨hnotin, e', he', hs, ht⟩ := hmem x hx
          exact ⟨fun hc => hnotin (List.mem_cons_of_mem _ hc),
            e', List.mem_cons_of_mem _ he', hs, ht⟩
        · rcases List.mem_singleton.mp hx with rfl
          exact ⟨h.2, e, List.mem_cons_self _ _, h.1, rfl⟩
    · obtain ⟨new, h1, h2, hnd, hmem⟩ := ih desc stack
      refine ⟨new, by simpa [processEdges, h] using h1,
        by simpa [processEdges, h] using h2, hnd, ?_⟩
      intro x hx
      obtain ⟨hnotin, e', he', hs, ht⟩ := hmem x hx
      exact ⟨hnotin, e', List.mem_cons_of_mem _ he', hs, ht⟩

theorem processEdges_closes (currentId : String) (es : List Edge)
    (desc stack : List String) :
    ∀ e ∈ es, e.source = currentId →
      e.target ∈ (processEdges currentId es (desc, stack)).1 := by
  induction es generalizing desc stack with
  | nil => intro e he; exact absurd he (List.not_mem_nil e)
  | cons e' es ih =>
    intro e he hs
    rcases List.mem_cons.mp he with rfl | he
    · by_cases h : e.source = currentId ∧ e.target ∉ desc
      · obtain ⟨new, h1, _, _, _⟩ :=
          processEdges_spec currentId es (e.target :: desc) (e.target :: stack)
        simp only [processEdges, if_pos h, h1]
        exact List.mem_append.mpr (Or.inr (List.mem_cons_self _ _))
      · have htgt : e.target ∈ desc := by
          rcases not_and_or.mp h with h' | h'
          · exact absurd hs h'
          · simpa using h'
        obtain ⟨new, h1, _, _, _⟩ := processEdges_spec currentId es desc stack
        simp only [processEdges, if_neg h, h1]
        exact List.mem_append.mpr (Or.inr htgt)
    · by_cases h : e'.source = currentId ∧ e'.target ∉ desc
      · simp only [processEdges, if_pos h]
        exact ih _ _ e he hs
      · simp only [processEdges, if_neg h]
        exact ih _ _ e he hs

theorem missingTargets_append (edges : List Edge) (new desc : List String) :
    missingTargets edges (new ++ desc) =
      missingTargets edges desc \ new.toFinset := by
  ext x
  simp only [missingTargets, Finset.mem_filter, Finset.mem_sdiff,
    List.mem_append, List.mem_toFinset]
  tauto

/-- The `while (stack.length > 0)` loop of `getDescendantIds`.  Terminates
because every push is paired with a fresh insertion into the visited set,
whose size is bounded by the number of distinct edge targets. -/
def descLoop (edges : List Edge) : List String → List String → List String
  | desc, [] => desc
  | desc, currentId :: stack =>
    descLoop edges (processEdges currentId edges (desc, stack)).1
      (processEdges currentId edges (desc, stack)).2
termination_by desc stack =>
  ((missingTargets edges desc).card, stack.length)
decreasing_by
  obtain ⟨new, h1, h2, hnd, hmem⟩ := processEdges_spec currentId edges desc stack
  rw [h1, h2, missingTargets_append]
  have hsub : new.toFinset ⊆ missingTargets edges desc := by
    intro x hx
    rw [List.mem_toFinset] at hx
    obtain ⟨hnotin, e, he, hs, ht⟩ := hmem x hx
    simp only [missingTargets, Finset.mem_filter, List.mem_toFinset, List.mem_map]
    exact ⟨⟨e, he, ht⟩, hnotin⟩
  rcases new with _ | ⟨y, ys⟩
  · apply Prod.Lex.right
    simp
  · apply Prod.Lex.left
    exact Finset.card_lt_card
      (Finset.sdiff_ssubset hsub ⟨y, by simp⟩)

/-- `getDescendantIds` (useThinkFlow.ts 574-591): iterative stack-based
traversal of all ids reachable from `nodeId` via outgoing edges. -/
def getDescendantIds (edges : List Edge) (nodeId : String) : List String :=
  descLoop edges [] [nodeId]

/-- `ReachNE edges a b`: `b` is reachable from `a` by a non-empty path of
outgoing edges. -/
inductive ReachNE (edges : List Edge) : String → String → Prop
  | single {a b : String} (e : Edge) (he : e ∈ edges) (hs : e.source = a)
      (ht : e.target = b) : ReachNE edges a b
  | tail {a b c : String} (h : ReachNE edges a b) (e : Edge) (he : e ∈ edges)
      (hs : e.source = b) (ht : e.target = c) : ReachNE edges a c

theorem descLoop_invariant (edges : List Edge) (start : String) :
    ∀ desc stack : List String,
      desc.Nodup →
      (∀ x ∈ desc, ReachNE edges start x) →
      (∀ x ∈ stack, x = start ∨ x ∈ desc) →
      (∀ x, (x = start ∨ x ∈ desc) → x ∉ stack →
        ∀ e ∈ edges, e.source = x → e.target ∈ desc) →
      (descLoop edges desc stack).Nodup ∧
      (∀ x ∈ descLoop edges desc stack, ReachNE edges start x) ∧
      desc ⊆ descLoop edges desc stack ∧
      (∀ x, (x = start ∨ x ∈ descLoop edges desc stack) →
        ∀ e ∈ edges, e.source = x → e.target ∈ descLoop edges desc stack) := by
  intro desc stack
  induction desc, stack using descLoop.induct edges with
  | case1 desc =>
    intro hnd hreach _ hclosed
    rw [descLoop]
    exact ⟨hnd, hreach, fun x hx => hx,
      fun x hx e he hs => hclosed x hx (List.not_mem_nil x) e he hs⟩
  | case2 desc currentId stack ih =>
    intro hnd hreach hstack hclosed
    obtain ⟨new, h1, h2, hnewnd, hmem⟩ :=
      processEdges_spec currentId edges desc stack
    have hcur : currentId = start ∨ currentId ∈ desc :=
      hstack currentId (List.mem_cons_self _ _)
    have hreachCur : ∀ y, (∃ e ∈ edges, e.source = currentId ∧ e.target = y) →
        ReachNE edges start y := by
      intro y ⟨e, he, hs, ht⟩
      rcases hcur with rfl | hcurdesc
      · exact ReachNE.single e he hs ht
      · exact ReachNE.tail (hreach currentId hcurdesc) e he hs ht
    have hnd' : (processEdges currentId edges (desc, stack)).1.Nodup := by
      rw [h1]
      refine List.Nodup.append hnewnd hnd ?_
      intro x hx hx'
      exact (hmem x hx).1 hx'
    have hreach' : ∀ x ∈ (processEdges currentId edges (desc, stack)).1,
        ReachNE edges start x := by
      rw [h1]
      intro x hx
      rcases List.mem_append.mp hx with hx | hx
      · exact hreachCur x (hmem x hx).2
      · exact hreach x hx
    have hstack' : ∀ x ∈ (processEdges currentId edges (desc, stack)).2,
        x = start ∨ x ∈ (processEdges currentId edges (desc, stack)).1 := by
      rw [h1, h2]
      intro x hx
      rcases List.mem_append.mp hx with hx | hx
      · exact Or.inr (List.mem_append.mpr (Or.inl hx))
      · rcases hstack x (List.mem_cons_of_mem _ hx) with h | h
        · exact Or.inl h
        · exact Or.inr (List.mem_append.mpr (Or.inr h))
    have hclosed' : ∀ x, (x = start ∨ x ∈ (processEdges currentId edges (desc, stack)).1) →
        x ∉ (processEdges currentId edges (desc, stack)).2 →
        ∀ e ∈ edges, e.source = x →
          e.target ∈ (processEdges currentId edges (desc, stack)).1 := by
      intro x hx hxs e he hs
      by_cases hxcur : x = currentId
      · subst hxcur
        exact processEdges_closes x edges desc stack e he hs
      · rw [h2] at hxs
        have hxnew : x ∉ new := fun hc => hxs (List.mem_append.mpr (Or.inl hc))
        have hxstack : x ∉ stack := fun hc => hxs (List.mem_append.mpr (Or.inr hc))
        have hxdesc : x = start ∨ x ∈ desc := by
          rcases hx with h | h
          · exact Or.inl h
          · rw [h1] at h
            rcases List.mem_append.mp h with h | h
            · exact absurd h hxnew
            · exact Or.inr h
        have : e.target ∈ desc := by
          refine hclosed x hxdesc ?_ e he hs
          intro hc
          rcases List.mem_cons.mp hc with rfl | hc
          · exact hxcur rfl
          · exact hxstack hc
        rw [h1]
        exact List.mem_append.mpr (Or.inr this)
    obtain ⟨rnd, rreach, rsub, rclosed⟩ := ih hnd' hreach' hstack' hclosed'
    rw [descLoop]
    refine ⟨rnd, rreach, ?_, rclosed⟩
    intro x hx
    refine rsub ?_
    rw [h1]
    exact List.mem_append.mpr (Or.inr hx)

/-- **C6.** For every finite edge collection (cycles through the start node
included), `getDescendantIds` is a total function (the traversal terminates),
returns each id at most once, every returned id is reachable from `nodeId` by
a non-empty path of outgoing edges, and every id so reachable is returned. -/
theorem getDescendantIds_correct (edges : List Edge) (nodeId : String) :
    (getDescendantIds edges nodeId).Nodup ∧
    (∀ x ∈ getDescendantIds edges nodeId, ReachNE edges nodeId x) ∧
    (∀ x, ReachNE edges nodeId x → x ∈ getDescendantIds edges nodeId) := by
  have h := descLoop_invariant edges nodeId [] [nodeId]
    List.nodup_nil (by simp) (by simp)
    (by
      intro x hx hxs
      rcases hx with rfl | hx
      · exact absurd (List.mem_singleton.mpr rfl) hxs
      · exact absurd hx (List.not_mem_nil x))
  obtain ⟨hnd, hreach, _, hclosed⟩ := h
  refine ⟨hnd, hreach, ?_⟩
  intro x hx
  induction hx with
  | single e he hs ht =>
    subst ht
    exact hclosed _ (Or.inl rfl) e he hs
  | tail h e he hs ht ih =>
    subst ht
    exact hclosed _ (Or.inr ih) e he hs

/-!
## Node deletion (`deleteNode`, useThinkFlow.ts lines 608-628)
-/

/-- JS `String.prototype.startsWith`, modelled on the underlying character
list (`String.startsWith` from core is opaque to kernel evaluation). -/
def strStartsWith (s pre : String) : Bool := pre.data.isPrefixOf s.data

/-- The canvas framework's `removeNodes`: removes the listed nodes and, with
the default options, every edge connected to one of them. -/
def removeNodesOp (g : Graph) (ids : List String) : Graph :=
  { nodes := g.nodes.filter (fun n => n.id ∉ ids),
    edges := g.edges.filter (fun e => e.source ∉ ids ∧ e.target ∉ ids) }

/-- `removeDescendants` (useThinkFlow.ts 597-602). -/
def removeDescendants (g : Graph) (nodeId : String) : Graph :=
  let descendantIds := getDescendantIds g.edges nodeId
  if descendantIds.length > 0 then removeNodesOp g descendantIds else g

/-- `deleteNode` (useThinkFlow.ts 608-628): refuses root nodes, then cascades
the delete to all descendants before removing the node itself.  (The
panel-state bookkeeping and the cloud save that follow touch no graph data
and are outside this model.) -/
def deleteNode (g : Graph) (nodeId : String) : Graph :=
  match g.nodes.find? (fun n => n.id = nodeId) with
  | none => g
  | some node =>
    if node.data.type = "root" ∨ strStartsWith node.id "root" then g
    else removeNodesOp (removeDescendants g nodeId) [nodeId]

/-!
## Subtree collapse (`toggleSubtreeCollapse` 918-926,
`applyCollapsedVisibility` 1091-1135)
-/

/-- `isSubtreeCollapsed` (useThinkFlow.ts 915-916). -/
def isSubtreeCollapsed (collapsedNodeIds : List String) (nodeId : String) : Prop :=
  nodeId ∈ collapsedNodeIds

instance (c : List String) (id : String) : Decidable (isSubtreeCollapsed c id) :=
  inferInstanceAs (Decidable (id ∈ c))

/-- `toggleSubtreeCollapse` (useThinkFlow.ts 918-926): the collapse operation
is a toggle on the `collapsedNodeIds` array. -/
def toggleSubtreeCollapse (collapsedNodeIds : List String) (nodeId : String) :
    List String :=
  if isSubtreeCollapsed collapsedNodeIds nodeId then
    collapsedNodeIds.filter (fun id => id ≠ nodeId)
  else
    collapsedNodeIds ++ [nodeId]

/-- The hidden set derived in `applyCollapsedVisibility` (1102-1105): the
union of descendant sets of all collapsed ids (a JS `Set`; only membership is
ever used, so duplicates in the list are irrelevant). -/
def hiddenIdsOf (edges : List Edge) (collapsed : List String) : List String :=
  collapsed.flatMap (fun id => getDescendantIds edges id)

/-- `applyCollapsedVisibility` (useThinkFlow.ts 1091-1135): recomputes
`hidden` flags and the derived `childrenCount`/`hiddenDescendantCount`
counters from the collapsed-id list. -/
def applyCollapsedVisibility (g : Graph) (collapsed : List String) : Graph :=
  let hiddenIds := hiddenIdsOf g.edges collapsed
  { nodes := g.nodes.map (fun n =>
      let isHidden := decide (n.id ∈ hiddenIds)
      let hiddenDescendantCount : Int :=
        if isSubtreeCollapsed collapsed n.id
        then (getDescendantIds g.edges n.id).length else 0
      let childrenCount : Int :=
        (g.edges.filter (fun e => e.source = n.id)).length
      let updatedData := { n.data with
        hiddenDescendantCount := hiddenDescendantCount
        childrenCount := childrenCount }
      let nextData :=
        if n.data.hiddenDescendantCount ≠ hiddenDescendantCount ∨
            n.data.childrenCount ≠ childrenCount
        then updatedData
        else n.data
      { n with hidden := isHidden, data := nextData }),
    edges := g.edges.map (fun e =>
      { e with hidden := decide (e.source ∈ hiddenIds ∨ e.target ∈ hiddenIds) }) }

theorem hiddenIdsOf_congr (edges : List Edge) {c₁ c₂ : List String}
    (h : ∀ x, x ∈ c₁ ↔ x ∈ c₂) :
    ∀ y, y ∈ hiddenIdsOf edges c₁ ↔ y ∈ hiddenIdsOf edges c₂ := by
  intro y
  simp only [hiddenIdsOf, List.mem_flatMap]
  constructor
  · rintro ⟨a, ha, hy⟩; exact ⟨a, (h a).mp ha, hy⟩
  · rintro ⟨a, ha, hy⟩; exact ⟨a, (h a).mpr ha, hy⟩

theorem applyCollapsedVisibility_congr (g : Graph) {c₁ c₂ : List String}
    (h : ∀ x, x ∈ c₁ ↔ x ∈ c₂) :
    applyCollapsedVisibility g c₁ = applyCollapsedVisibility g c₂ := by
  have hh := hiddenIdsOf_congr g.edges h
  unfold applyCollapsedVisibility
  refine congrArg₂ Graph.mk ?_ ?_
  · refine List.map_congr_left ?_
    intro n _
    have h1 : decide (n.id ∈ hiddenIdsOf g.edges c₁)
        = decide (n.id ∈ hiddenIdsOf g.edges c₂) :=
      decide_eq_decide.mpr (hh n.id)
    have h2 : isSubtreeCollapsed c₁ n.id ↔ isSubtreeCollapsed c₂ n.id := h n.id
    simp only [h1, if_congr h2 rfl rfl]
  · refine List.map_congr_left ?_
    intro e _
    have h1 : decide (e.source ∈ hiddenIdsOf g.edges c₁ ∨ e.target ∈ hiddenIdsOf g.edges c₁)
        = decide (e.source ∈ hiddenIdsOf g.edges c₂ ∨ e.target ∈ hiddenIdsOf g.edges c₂) :=
      decide_eq_decide.mpr (or_congr (hh e.source) (hh e.target))
    simp only [h1]

theorem toggle_toggle_mem (c : List String) (id : String) :
    ∀ x, x ∈ toggleSubtreeCollapse (toggleSubtreeCollapse c id) id ↔ x ∈ c := by
  intro x
  by_cases h : isSubtreeCollapsed c id
  · have h1 : toggleSubtreeCollapse c id = c.filter (fun i => i ≠ id) := by
      simp [toggleSubtreeCollapse, h]
    have h2 : ¬ isSubtreeCollapsed (c.filter (fun i => i ≠ id)) id := by
      simp [isSubtreeCollapsed, List.mem_filter]
    rw [h1, toggleSubtreeCollapse, if_neg h2]
    simp only [List.mem_append, List.mem_filter, List.mem_singleton, decide_eq_true_eq]
    constructor
    · rintro (⟨hx, _⟩ | rfl)
      · exact hx
      · exact h
    · intro hx
      by_cases hxid : x = id
      · exact Or.inr hxid
      · exact Or.inl ⟨hx, hxid⟩
  · have h2 : isSubtreeCollapsed (c ++ [id]) id := by
      simp [isSubtreeCollapsed]
    have h1 : toggleSubtreeCollapse c id = c ++ [id] := by
      simp [toggleSubtreeCollapse, h]
    rw [h1, toggleSubtreeCollapse, if_pos h2]
    simp only [List.filter_append, List.mem_append, List.mem_filter,
      List.mem_singleton, decide_eq_true_eq]
    constructor
    · rintro (⟨hx, _⟩ | ⟨rfl, hne⟩)
      · exact hx
      · exact absurd rfl hne
    · intro hx
      refine Or.inl ⟨hx, ?_⟩
      intro hxid
      exact h (hxid ▸ hx)

/-- **C4 (amended).** Collapsing then expanding the same id (two applications
of the toggle) restores the prior collapsed-id set, hence the derived hidden
node/edge flags, exactly; when the id was not collapsed the collapsed-id list
itself is restored verbatim. -/
theorem collapse_roundtrip (g : Graph) (c : List String) (id : String) :
    (∀ x, x ∈ toggleSubtreeCollapse (toggleSubtreeCollapse c id) id ↔ x ∈ c) ∧
    applyCollapsedVisibility g (toggleSubtreeCollapse (toggleSubtreeCollapse c id) id)
      = applyCollapsedVisibility g c ∧
    (¬ isSubtreeCollapsed c id →
      toggleSubtreeCollapse (toggleSubtreeCollapse c id) id = c) := by
  refine ⟨toggle_toggle_mem c id,
    applyCollapsedVisibility_congr g (toggle_toggle_mem c id), ?_⟩
  intro h
  have h2 : isSubtreeCollapsed (c ++ [id]) id := by
    simp [isSubtreeCollapsed]
  have h1 : toggleSubtreeCollapse c id = c ++ [id] := by
    simp [toggleSubtreeCollapse, h]
  rw [h1, toggleSubtreeCollapse, if_pos h2]
  rw [List.filter_append]
  have hc : c.filter (fun i => i ≠ id) = c := by
    refine List.filter_eq_self.mpr ?_
    intro a ha
    simp only [ne_eq, decide_eq_true_eq]
    intro hare
    exact h (hare ▸ ha)
  rw [hc]
  simp

theorem collapse_roundtrip_witness :
    ¬ isSubtreeCollapsed [] "a" ∧
      toggleSubtreeCollapse (toggleSubtreeCollapse [] "a") "a" = [] :=
  ⟨by decide, (collapse_roundtrip ⟨[], []⟩ [] "a").2.2 (by decide)⟩

/-- Two-node graph `a → b`, used as a concrete instance. -/
def gAB : Graph :=
  { nodes := [{ id := "a", position := ⟨0, 0⟩, data := {} },
              { id := "b", position := ⟨0, 0⟩, data := {} }],
    edges := [{ id := "e-a-b", source := "a", target := "b" }] }

/-- **C4 counterexample.** The code's only collapse entry point is the
toggle: applied to the already-collapsed id `"a"` it removes `"a"` from the
collapsed set, and the derived hidden flags change (`b` becomes visible), so
collapsing an already-collapsed id is not a no-op. -/
theorem collapse_already_collapsed_not_noop :
    isSubtreeCollapsed ["a"] "a" ∧
    toggleSubtreeCollapse ["a"] "a" = [] ∧
    (applyCollapsedVisibility gAB (toggleSubtreeCollapse ["a"] "a")).nodes.map
      Node.hidden = [false, false] ∧
    (applyCollapsedVisibility gAB ["a"]).nodes.map Node.hidden = [false, true] := by
  refine ⟨by decide, by decide, ?_, ?_⟩
  · simp [applyCollapsedVisibility, hiddenIdsOf, toggleSubtreeCollapse,
      isSubtreeCollapsed, gAB]
  · simp [applyCollapsedVisibility, hiddenIdsOf, getDescendantIds, descLoop,
      processEdges, isSubtreeCollapsed, gAB]

/-- **C10.** Deleting the root is refused: when the node found under the
given id has an id starting with `"root"` or `data.type = "root"`,
`deleteNode` leaves the node and edge collections entirely unchanged. -/
theorem deleteNode_refuses_root (g : Graph) (nodeId : String) (n : Node)
    (hfind : g.nodes.find? (fun m => m.id = nodeId) = some n)
    (hroot : strStartsWith n.id "root" = true ∨ n.data.type = "root") :
    deleteNode g nodeId = g := by
  unfold deleteNode
  rw [hfind]
  exact if_pos hroot.symm

/-- Concrete graph with a root node and one child, for C10. -/
def gRoot : Graph :=
  { nodes := [{ id := "root-1", position := ⟨0, 0⟩, data := { type := "root" } },
              { id := "node-1", position := ⟨0, 0⟩, data := { type := "child" } }],
    edges := [{ id := "e-root-1-node-1", source := "root-1", target := "node-1" }] }

theorem deleteNode_refuses_root_witness : deleteNode gRoot "root-1" = gRoot :=
  deleteNode_refuses_root gRoot "root-1"
    { id := "root-1", position := ⟨0, 0⟩, data := { type := "root" } }
    (by decide) (by decide)

/-!
## Hierarchical drag propagation (`handleNodeDrag`, useThinkFlow.ts 337-530)
-/

/-- `targetNode.position = { x: .. + dx, y: .. + dy }` applied to the first
node with the given id (the source's `flowNodes.value.find`). -/
def updatePosFirst (nodes : List Node) (id : String) (dx dy : ℚ) : List Node :=
  match nodes with
  | [] => []
  | n :: ns =>
    if n.id = id then
      { n with position := ⟨n.position.x + dx, n.position.y + dy⟩ } :: ns
    else n :: updatePosFirst ns id dx dy

/-- The `descendantIds.forEach` loop (useThinkFlow.ts 518-529): translate
every descendant of the dragged node that is not part of the current
multi-selection. -/
def moveDescendants (nodes : List Node)
    (descendantIds selectedNodeIds : List String) (dx dy : ℚ) : List Node :=
  descendantIds.foldl
    (fun acc id =>
      if id ∈ selectedNodeIds then acc else updatePosFirst acc id dx dy)
    nodes

/-- `handleNodeDrag`, hierarchical part (useThinkFlow.ts 465-530), for one
drag frame with `config.hierarchicalDragging` enabled.  `nodePos` is the
dragged node's position for this frame after the optional snap-to-alignment
step (344-463) — that step only adjusts the dragged node's own proposed
position, so it is universally quantified here.  `lastPos` is this node's
entry in `dragLastPositionByNodeId` and `fallbackDelta` the optional
`payload.delta`.  Returns the updated node collection and the updated
last-seen entry for this node. -/
def hierarchicalDragStep (g : Graph) (nodeId : String) (nodePos : Pos)
    (lastPos : Option Pos) (fallbackDelta : Option Pos) :
    List Node × Option Pos :=
  match g.nodes.find? (fun n => n.id = nodeId) with
  | none => (g.nodes, lastPos)
  | some _ =>
    let selectedNodeIds := (g.nodes.filter (fun n => n.selected)).map Node.id
    match lastPos with
    | none =>
      match fallbackDelta with
      | none => (g.nodes, some nodePos)
      | some d =>
        let descendantIds := getDescendantIds g.edges nodeId
        if descendantIds.length = 0 then (g.nodes, some nodePos)
        else (moveDescendants g.nodes descendantIds selectedNodeIds d.x d.y,
          some nodePos)
    | some lp =>
      let dx := nodePos.x - lp.x
      let dy := nodePos.y - lp.y
      if dx = 0 ∧ dy = 0 then (g.nodes, some lp)
      else
        let descendantIds := getDescendantIds g.edges nodeId
        if descendantIds.length = 0 then (g.nodes, some nodePos)
        else (moveDescendants g.nodes descendantIds selectedNodeIds dx dy,
          some nodePos)

theorem updatePosFirst_map_id (nodes : List Node) (id : String) (dx dy : ℚ) :
    (updatePosFirst nodes id dx dy).map Node.id = nodes.map Node.id := by
  induction nodes with
  | nil => rfl
  | cons n ns ih =>
    by_cases h : n.id = id
    · simp [updatePosFirst, h]
    · simp [updatePosFirst, h, ih]

theorem updatePosFirst_eq_map (nodes : List Node) (id : String) (dx dy : ℚ)
    (hnodup : (nodes.map Node.id).Nodup) :
    updatePosFirst nodes id dx dy = nodes.map (fun n =>
      if n.id = id then
        { n with position := ⟨n.position.x + dx, n.position.y + dy⟩ }
      else n) := by
  induction nodes with
  | nil => rfl
  | cons n ns ih =>
    simp only [List.map_cons, List.nodup_cons] at hnodup
    by_cases h : n.id = id
    · simp only [updatePosFirst, if_pos h, List.map_cons, if_pos h]
      congr 1
      have : ∀ m ∈ ns, (if m.id = id then
          { m with position := ⟨m.position.x + dx, m.position.y + dy⟩ }
        else m) = m := by
        intro m hm
        have : m.id ≠ id := by
          intro he
          exact hnodup.1 (h ▸ he ▸ List.mem_map_of_mem Node.id hm)
        rw [if_neg this]
      rw [List.map_congr_left this]
      simp
    · simp only [updatePosFirst, if_neg h, List.map_cons, if_neg h]
      congr 1
      exact ih hnodup.2

theorem moveDescendants_eq_map (descendantIds : List String)
    (nodes : List Node) (selectedNodeIds : List String) (dx dy : ℚ)
    (hnodup : (nodes.map Node.id).Nodup) (hds : descendantIds.Nodup) :
    moveDescendants nodes descendantIds selectedNodeIds dx dy
      = nodes.map (fun n =>
          if n.id ∈ descendantIds ∧ n.id ∉ selectedNodeIds then
            { n with position := ⟨n.position.x + dx, n.position.y + dy⟩ }
          else n) := by
  induction descendantIds generalizing nodes with
  | nil =>
    have : ∀ m ∈ nodes, (if m.id ∈ ([] : List String) ∧ m.id ∉ selectedNodeIds
        then { m with position := ⟨m.position.x + dx, m.position.y + dy⟩ }
        else m) = m := by
      intro m _
      simp
    rw [moveDescendants, List.foldl_nil, List.map_congr_left this]
    simp
  | cons d0 ds ih =>
    simp only [List.nodup_cons] at hds
    rw [moveDescendants, List.foldl_cons]
    by_cases hsel : d0 ∈ selectedNodeIds
    · rw [if_pos hsel]
      have h1 := ih nodes hnodup hds.2
      rw [moveDescendants] at h1
      rw [h1]
      refine List.map_congr_left ?_
      intro n _
      by_cases hd0 : n.id = d0
      · have h2 : ¬ (n.id ∈ d0 :: ds ∧ n.id ∉ selectedNodeIds) := by
          rintro ⟨_, hns⟩
          exact hns (hd0 ▸ hsel)
        have h3 : ¬ (n.id ∈ ds ∧ n.id ∉ selectedNodeIds) := by
          rintro ⟨hmem, hns⟩
          exact hns (hd0 ▸ hsel)
        rw [if_neg h2, if_neg h3]
      · have h4 : n.id ∈ d0 :: ds ↔ n.id ∈ ds := by
          simp [List.mem_cons, hd0]
        rw [if_congr (and_congr_left fun _ => h4) rfl rfl]
    · rw [if_neg hsel]
      have hnodup' : ((updatePosFirst nodes d0 dx dy).map Node.id).Nodup := by
        rw [updatePosFirst_map_id]; exact hnodup
      have h1 := ih (updatePosFirst nodes d0 dx dy) hnodup' hds.2
      rw [moveDescendants] at h1
      rw [h1, updatePosFirst_eq_map nodes d0 dx dy hnodup, List.map_map]
      refine List.map_congr_left ?_
      intro n _
      simp only [Function.comp]
      by_cases hd0 : n.id = d0
      · have hnds : n.id ∉ ds := hd0 ▸ hds.1
        rw [if_pos hd0]
        have h2 : ¬ (({ n with position := ⟨n.position.x + dx, n.position.y + dy⟩ : Node }).id ∈ ds
            ∧ ({ n with position := ⟨n.position.x + dx, n.position.y + dy⟩ : Node }).id ∉ selectedNodeIds) := by
          rintro ⟨hmem, _⟩
          exact hnds hmem
        rw [if_neg h2]
        have h3 : n.id ∈ d0 :: ds ∧ n.id ∉ selectedNodeIds := by
          exact ⟨by simp [hd0], hd0 ▸ hsel⟩
        rw [if_pos h3]
      · rw [if_neg hd0]
        have h4 : n.id ∈ d0 :: ds ↔ n.id ∈ ds := by
          simp [List.mem_cons, hd0]
        rw [if_congr (and_congr_left fun _ => h4) rfl rfl]

theorem getDescendantIds_nodup (edges : List Edge) (nodeId : String) :
    (getDescendantIds edges nodeId).Nodup :=
  (descLoop_invariant edges nodeId [] [nodeId]
    List.nodup_nil (by simp) (by simp)
    (by
      intro x hx hxs
      rcases hx with rfl | hx
      · exact absurd (List.mem_singleton.mpr rfl) hxs
      · exact absurd hx (List.not_mem_nil x))).1

/-- **C3.** For a hierarchical-drag frame where the dragged node's last-seen
position is recorded and the frame delta `(dx,dy)` is nonzero: every
descendant of the dragged node that is not part of the current
multi-selection is translated by exactly `(dx,dy)`; every other node — the
dragged node's ancestors and every node outside its descendant set —
keeps its position (the map below leaves it unchanged); and the last-seen
position is updated to the new position. -/
theorem hierarchicalDrag_frame (g : Graph) (nodeId : String)
    (nodePos lp : Pos) (fallbackDelta : Option Pos)
    (hnodup : (g.nodes.map Node.id).Nodup)
    (hfound : (g.nodes.find? (fun n => n.id = nodeId)).isSome = true)
    (hmove : ¬ (nodePos.x - lp.x = 0 ∧ nodePos.y - lp.y = 0)) :
    (hierarchicalDragStep g nodeId nodePos (some lp) fallbackDelta).1
      = g.nodes.map (fun n =>
          if n.id ∈ getDescendantIds g.edges nodeId ∧ ¬ n.selected = true then
            { n with position := ⟨n.position.x + (nodePos.x - lp.x),
                                  n.position.y + (nodePos.y - lp.y)⟩ }
          else n) ∧
    (hierarchicalDragStep g nodeId nodePos (some lp) fallbackDelta).2
      = some nodePos := by
  obtain ⟨dn, hdn⟩ := Option.isSome_iff_exists.mp hfound
  have hsel : ∀ n ∈ g.nodes,
      (n.id ∈ (g.nodes.filter (fun n => n.selected)).map Node.id ↔
        n.selected = true) := by
    intro n hn
    constructor
    · intro hmem
      obtain ⟨m, hm, hmid⟩ := List.mem_map.mp hmem
      have hmnodes := (List.mem_filter.mp hm).1
      have hmsel := (List.mem_filter.mp hm).2
      have : m = n := by
        have h1 := List.inj_on_of_nodup_map hnodup
        exact h1 hmnodes hn hmid
      rw [← this]
      simpa using hmsel
    · intro hs
      exact List.mem_map_of_mem Node.id (List.mem_filter.mpr ⟨hn, by simpa using hs⟩)
  unfold hierarchicalDragStep
  rw [hdn]
  simp only [if_neg hmove]
  by_cases hlen : (getDescendantIds g.edges nodeId).length = 0
  · have hempty : getDescendantIds g.edges nodeId = [] :=
      List.eq_nil_of_length_eq_zero hlen
    simp only [if_pos hlen]
    refine ⟨?_, by first | rfl | trivial⟩
    have : ∀ m ∈ g.nodes,
        (if m.id ∈ getDescendantIds g.edges nodeId ∧ ¬ m.selected = true then
          { m with position := ⟨m.position.x + (nodePos.x - lp.x),
                                m.position.y + (nodePos.y - lp.y)⟩ }
        else m) = m := by
      intro m _
      rw [hempty]
      simp
    rw [List.map_congr_left this]
    simp
  · simp only [if_neg hlen]
    refine ⟨?_, by first | rfl | trivial⟩
    rw [moveDescendants_eq_map _ _ _ _ _ hnodup (getDescendantIds_nodup _ _)]
    refine List.map_congr_left ?_
    intro n hn
    have h1 : (n.id ∈ getDescendantIds g.edges nodeId ∧
        n.id ∉ (g.nodes.filter (fun n => n.selected)).map Node.id) ↔
        (n.id ∈ getDescendantIds g.edges nodeId ∧ ¬ n.selected = true) :=
      and_congr_right fun _ => not_congr (hsel n hn)
    rw [if_congr h1 rfl rfl]

theorem hierarchicalDrag_frame_witness :
    (hierarchicalDragStep gAB "a" ⟨1, 1⟩ (some ⟨0, 0⟩) none).1
      = gAB.nodes.map (fun n =>
          if n.id ∈ getDescendantIds gAB.edges "a" ∧ ¬ n.selected = true then
            { n with position := ⟨n.position.x + ((1 : ℚ) - 0),
                                  n.position.y + ((1 : ℚ) - 0)⟩ }
          else n) :=
  (hierarchicalDrag_frame gAB "a" ⟨1, 1⟩ ⟨0, 0⟩ none
    (by decide) (by decide) (by simp)).1

/-!
## Tree layout (`resetLayout`, useThinkFlow.ts 1222-1331)

The two layout passes read only a node's id, `hidden` flag, measured sizes
and `data.type` — never its position — so they are defined over the
projection `Node.meta` of the node collection.  `resetLayout` then writes the
computed positions back.
-/

/-- The position-independent part of a node that the layout passes read. -/
structure NodeMeta where
  id : String
  hidden : Bool
  dimensions : Option Dim
  measured : Option Dim
  dataType : String
deriving DecidableEq, Repr

def Node.meta (n : Node) : NodeMeta :=
  ⟨n.id, n.hidden, n.dimensions, n.measured, n.data.type⟩

/-- `getNodeSize` (useThinkFlow.ts 1234-1237):
`node.dimensions?.width ?? node.measured?.width ?? 280` (resp. `180`). -/
def getNodeSize (n : NodeMeta) : Dim :=
  { width :=
      match n.dimensions with
      | some d => d.width
      | none => match n.measured with
        | some m => m.width
        | none => 280,
    height :=
      match n.dimensions with
      | some d => d.height
      | none => match n.measured with
        | some m => m.height
        | none => 180 }

/-- JS `v || d` for an optionally-present number `v`: `d` when `v` is
`undefined` or `0`. -/
def jsOrQ (v : Option ℚ) (d : ℚ) : ℚ :=
  match v with
  | some h => if h = 0 then d else h
  | none => d

/-- JS `Map.get`: the most recently `set` value for the key (newest entries
are consed to the front of the association list). -/
def mapGet {β : Type} (m : List (String × β)) (k : String) : Option β :=
  (m.find? (fun p => p.1 = k)).map Prod.snd

/-- The visible children of a node: targets of its outgoing edges whose node
exists and is not hidden (useThinkFlow.ts 1250-1256 and 1304-1310). -/
def visibleChildren (metas : List NodeMeta) (edges : List Edge)
    (nodeId : String) : List String :=
  ((edges.filter (fun e => e.source = nodeId)).map Edge.target).filter
    (fun id =>
      match metas.find? (fun n => n.id = id) with
      | some c => !c.hidden
      | none => false)

mutual

/-- Pass 1, `calculateSubtreeHeight` (useThinkFlow.ts 1245-1275): post-order
subtree heights, threaded through the `subtreeHeights` map.  `fuel` bounds
the recursion depth (the JS recursion has no visited set; on the forest
graphs the pipeline produces, depth is below the node count, so any fuel
larger than that reproduces the source exactly). -/
def calcSubtreeHeight (metas : List NodeMeta) (edges : List Edge) :
    Nat → String → List (String × ℚ) → List (String × ℚ) × ℚ
  | 0, _, hs => (hs, 0)
  | fuel + 1, nodeId, hs =>
    match metas.find? (fun n => n.id = nodeId) with
    | none => (hs, 0)
    | some node =>
      if node.hidden then (hs, 0)
      else
        let size := getNodeSize node
        let children := visibleChildren metas edges nodeId
        if children.isEmpty then ((nodeId, size.height) :: hs, size.height)
        else
          let r := calcChildrenHeights metas edges fuel children hs
          let totalHeight := max size.height r.2
          ((nodeId, totalHeight) :: r.1, totalHeight)
termination_by fuel _ _ => (fuel, 0)

/-- The `children.forEach` accumulation inside pass 1: child subtree heights
plus a `nodeGapY = 40` gap after every child but the last. -/
def calcChildrenHeights (metas : List NodeMeta) (edges : List Edge) :
    Nat → List String → List (String × ℚ) → List (String × ℚ) × ℚ
  | _, [], hs => (hs, 0)
  | fuel, [c], hs => calcSubtreeHeight metas edges fuel c hs
  | fuel, c :: cs, hs =>
    let r := calcSubtreeHeight metas edges fuel c hs
    let r2 := calcChildrenHeights metas edges fuel cs r.1
    (r2.1, r.2 + 40 + r2.2)
termination_by fuel cs _ => (fuel, cs.length + 1)

end

mutual

/-- Pass 2, `layoutNode` (useThinkFlow.ts 1288-1322): pre-order position
assignment; returns the visited set and the accumulated position writes. -/
def layoutNode (metas : List NodeMeta) (edges : List Edge)
    (heights : List (String × ℚ)) :
    Nat → String → ℚ → ℚ → List String → List (String × Pos) →
      List String × List (String × Pos)
  | 0, _, _, _, visited, posMap => (visited, posMap)
  | fuel + 1, nodeId, x, ySubtreeTop, visited, posMap =>
    if nodeId ∈ visited then (visited, posMap)
    else
      let visited' := nodeId :: visited
      match metas.find? (fun n => n.id = nodeId) with
      | none => (visited', posMap)
      | some node =>
        if node.hidden then (visited', posMap)
        else
          let size := getNodeSize node
          let subtreeHeight := jsOrQ (mapGet heights nodeId) size.height
          let posMap' :=
            (nodeId, (⟨x, ySubtreeTop + (subtreeHeight - size.height) / 2⟩ : Pos))
              :: posMap
          let children := visibleChildren metas edges nodeId
          if children.isEmpty then (visited', posMap')
          else
            layoutChildren metas edges heights fuel children
              (x + size.width + 150) ySubtreeTop visited' posMap'
termination_by fuel _ _ _ _ _ => (fuel, 0)

/-- The `children.forEach` loop inside pass 2: lay out each child at
`nextX`, advancing `currentY` by its subtree height plus `nodeGapY = 40`. -/
def layoutChildren (metas : List NodeMeta) (edges : List Edge)
    (heights : List (String × ℚ)) :
    Nat → List String → ℚ → ℚ → List String → List (String × Pos) →
      List String × List (String × Pos)
  | _, [], _, _, visited, posMap => (visited, posMap)
  | fuel, c :: cs, nextX, currentY, visited, posMap =>
    let childSubtreeHeight := jsOrQ (mapGet heights c) 0
    let r := layoutNode metas edges heights fuel c nextX currentY visited posMap
    layoutChildren metas edges heights fuel cs nextX
      (currentY + childSubtreeHeight + 40) r.1 r.2
termination_by fuel cs _ _ _ _ => (fuel, cs.length + 1)

end

/-- Write the computed positions back into the node collection
(the source's in-place `node.position = {...}` mutations). -/
def applyPositions (nodes : List Node) (posMap : List (String × Pos)) :
    List Node :=
  nodes.map (fun n =>
    match mapGet posMap n.id with
    | some p => { n with position := p }
    | none => n)

/-- `resetLayout` (useThinkFlow.ts 1222-1331): find the root, compute subtree
heights (pass 1), assign positions from `(50, 100)` (pass 2) and write them
back.  The trailing `fitView` touches no graph data. -/
def resetLayout (g : Graph) : Graph :=
  let metas := g.nodes.map Node.meta
  match metas.find? (fun n => strStartsWith n.id "root" ∨ n.dataType = "root") with
  | none => g
  | some rootNode =>
    let heights :=
      (calcSubtreeHeight metas g.edges (metas.length + 1) rootNode.id []).1
    let posMap :=
      (layoutNode metas g.edges heights (metas.length + 1) rootNode.id
        50 100 [] []).2
    { g with nodes := applyPositions g.nodes posMap }

theorem applyPositions_meta (nodes : List Node) (posMap : List (String × Pos)) :
    (applyPositions nodes posMap).map Node.meta = nodes.map Node.meta := by
  unfold applyPositions
  rw [List.map_map]
  refine List.map_congr_left ?_
  intro n _
  simp only [Function.comp]
  cases mapGet posMap n.id with
  | none => rfl
  | some p => rfl

theorem applyPositions_idem (nodes : List Node) (posMap : List (String × Pos)) :
    applyPositions (applyPositions nodes posMap) posMap
      = applyPositions nodes posMap := by
  unfold applyPositions
  rw [List.map_map]
  refine List.map_congr_left ?_
  intro n _
  simp only [Function.comp]
  cases h : mapGet posMap n.id with
  | none => simp [h]
  | some p =>
    have hid : ({ n with position := p } : Node).id = n.id := rfl
    simp only [hid, h]

/-- **C7.** The layout operation is idempotent on the whole graph state: a
second `resetLayout` run without any structural or size change reproduces the
first run's positions exactly (the layout passes never read positions, and
node sizes default to 280×180 when unmeasured).  In particular this holds for
a balanced binary tree of depth 3 with uniform 280×180 nodes. -/
theorem resetLayout_idempotent (g : Graph) :
    resetLayout (resetLayout g) = resetLayout g := by
  unfold resetLayout
  cases hfind : (g.nodes.map Node.meta).find?
      (fun n => strStartsWith n.id "root" ∨ n.dataType = "root") with
  | none =>
    simp only [hfind]
  | some rootNode =>
    simp only [hfind]
    have hmeta : (applyPositions g.nodes
        ((layoutNode (g.nodes.map Node.meta) g.edges
          ((calcSubtreeHeight (g.nodes.map Node.meta) g.edges
            ((g.nodes.map Node.meta).length + 1) rootNode.id []).1)
          ((g.nodes.map Node.meta).length + 1) rootNode.id 50 100 [] []).2)).map
            Node.meta = g.nodes.map Node.meta := applyPositions_meta _ _
    simp only [hmeta, hfind, applyPositions_idem]

/-!
## Cloud sync (`useCloudStorage`: content-hash dirty tracking and
incremental save; unnamed source file, `getNodeHash`/`getEdgeHash`,
`detectChanges`, `saveNodesToCloud`, `saveEdgesToCloud`)
-/

/-- The persisted-field record whose `JSON.stringify` is the node content
hash (`getNodeHash`).  `JSON.stringify` of this fixed-shape record is
injective — two such records stringify to the same string iff they agree
field by field — so the hash string is modelled by the record itself.  The
`|| ""`/`|| 0`/`|| false` defaults of the source are identities on the total
fields of `NodeData`. -/
structure NodeHash where
  id : String
  type : String
  position : Pos
  label : String
  title : String
  description : String
  detailedContent : String
  imageUrl : String
  childrenCount : Int
  isExpanding : Bool
  followUp : String
deriving DecidableEq, Repr

/-- `getNodeHash`: hash over the persisted subset of node fields only. -/
def getNodeHash (n : Node) : NodeHash :=
  { id := n.id, type := n.type, position := n.position,
    label := n.data.label, title := n.data.title,
    description := n.data.description,
    detailedContent := n.data.detailedContent,
    imageUrl := n.data.imageUrl,
    childrenCount := n.data.childrenCount,
    isExpanding := n.data.isExpanding,
    followUp := n.data.followUp }

/-- The persisted-field record stringified by `getEdgeHash`. -/
structure EdgeHash where
  id : String
  source : String
  target : String
  type : String
  style : EdgeStyle
deriving DecidableEq, Repr

/-- `getEdgeHash`: hash over the persisted subset of edge fields only. -/
def getEdgeHash (e : Edge) : EdgeHash :=
  { id := e.id, source := e.source, target := e.target,
    type := e.type, style := e.style }

/-- JS `Set.add` on a duplicate-free list. -/
def setAdd (l : List String) (x : String) : List String :=
  if x ∈ l then l else l ++ [x]

/-- JS `Map.set`: overwrite the entry for the key (`mapGet` reads the
front-most entry). -/
def mapSet {b : Type} (m : List (String × b)) (k : String) (v : b) :
    List (String × b) :=
  (k, v) :: m.filter (fun p => p.1 ≠ k)

/-- The module-level tracking state of `useCloudStorage`: dirty/deleted id
sets, the last-synced hash snapshots, and `isSyncing`/`syncError`.
(`lastSyncTime` is an external wall-clock value no claim mentions.) -/
structure SyncState where
  dirtyNodes : List String := []
  dirtyEdges : List String := []
  deletedNodes : List String := []
  deletedEdges : List String := []
  lastSyncedNodes : List (String × NodeHash) := []
  lastSyncedEdges : List (String × EdgeHash) := []
  isSyncing : Bool := false
  syncError : Option String := none
deriving DecidableEq, Repr

/-- `detectChanges`: recompute hashes for the current collections, mark as
dirty anything whose hash differs from (or is absent from) the snapshot, and
mark as deleted anything in the snapshot but absent from the collections. -/
def detectChanges (st : SyncState) (currentNodes : List Node)
    (currentEdges : List Edge) : SyncState :=
  let dirtyNodes := currentNodes.foldl (fun acc n =>
    if mapGet st.lastSyncedNodes n.id ≠ some (getNodeHash n)
    then setAdd acc n.id else acc) st.dirtyNodes
  let deletedNodes := st.lastSyncedNodes.foldl (fun acc p =>
    if p.1 ∉ currentNodes.map Node.id then setAdd acc p.1 else acc)
    st.deletedNodes
  let dirtyEdges := currentEdges.foldl (fun acc e =>
    if mapGet st.lastSyncedEdges e.id ≠ some (getEdgeHash e)
    then setAdd acc e.id else acc) st.dirtyEdges
  let deletedEdges := st.lastSyncedEdges.foldl (fun acc p =>
    if p.1 ∉ currentEdges.map Edge.id then setAdd acc p.1 else acc)
    st.deletedEdges
  { st with
    dirtyNodes := dirtyNodes
    deletedNodes := deletedNodes
    dirtyEdges := dirtyEdges
    deletedEdges := deletedEdges }

/-- Result of a `save*ToCloud` call: the returned boolean, the state after
the call, and the number of network upsert calls issued. -/
structure SaveOutcome where
  ok : Bool
  st : SyncState
  upsertCalls : Nat
deriving DecidableEq, Repr

/-- `saveNodesToCloud`: upsert only dirty nodes, then update the snapshot
and clear the dirty marks.  `isAuthenticated`/`currentProject` come from the
auth/project singletons; `upsertError` is the outcome the remote store
returns for the single batched upsert (`none` = success). -/
def saveNodesToCloud (isAuthenticated : Bool) (currentProject : Option String)
    (st : SyncState) (nodes : List Node) (upsertError : Option String) :
    SaveOutcome :=
  if isAuthenticated = false ∨ currentProject = none then ⟨false, st, 0⟩
  else if st.dirtyNodes.length = 0 then ⟨true, st, 0⟩
  else
    let st1 := { st with isSyncing := true, syncError := none }
    let nodesToSave := nodes.filter (fun n => n.id ∈ st1.dirtyNodes)
    if nodesToSave.length = 0 then ⟨true, { st1 with isSyncing := false }, 0⟩
    else
      match upsertError with
      | some msg =>
        ⟨false, { st1 with syncError := some msg, isSyncing := false }, 1⟩
      | none =>
        let snap := nodesToSave.foldl
          (fun acc n => mapSet acc n.id (getNodeHash n)) st1.lastSyncedNodes
        let st2 := { st1 with
          lastSyncedNodes := snap
          dirtyNodes := []
          isSyncing := false }
        ⟨true, st2, 1⟩

/-- `saveEdgesToCloud`: the edge analogue (the source never touches
`isSyncing` here). -/
def saveEdgesToCloud (isAuthenticated : Bool) (currentProject : Option String)
    (st : SyncState) (edges : List Edge) (upsertError : Option String) :
    SaveOutcome :=
  if isAuthenticated = false ∨ currentProject = none then ⟨false, st, 0⟩
  else if st.dirtyEdges.length = 0 then ⟨true, st, 0⟩
  else
    let edgesToSave := edges.filter (fun e => e.id ∈ st.dirtyEdges)
    if edgesToSave.length = 0 then ⟨true, st, 0⟩
    else
      match upsertError with
      | some msg => ⟨false, { st with syncError := some msg }, 1⟩
      | none =>
        let snap := edgesToSave.foldl
          (fun acc e => mapSet acc e.id (getEdgeHash e)) st.lastSyncedEdges
        let st2 := { st with
          lastSyncedEdges := snap
          dirtyEdges := [] }
        ⟨true, st2, 1⟩

/-- A node update that touches only transient (non-persisted) fields. -/
def transientUpdate (n : Node) (hid sel b1 b2 b3 b4 : Bool)
    (dims ms : Option Dim) (err : Option String) (fl rc : String)
    (hdc : Int) : Node :=
  { n with
    hidden := hid
    selected := sel
    dimensions := dims
    measured := ms
    data := { n.data with
      error := err
      isImageLoading := b1
      isTitleExpanded := b2
      isDetailExpanded := b3
      isGeneratingQuestions := b4
      fullLabel := fl
      reasoningContent := rc
      hiddenDescendantCount := hdc } }

theorem setAdd_mem (l : List String) (x y : String) :
    y ∈ setAdd l x ↔ y ∈ l ∨ y = x := by
  unfold setAdd
  by_cases h : x ∈ l
  · simp only [if_pos h, List.mem_append, List.mem_singleton]
    constructor
    · exact Or.inl
    · rintro (hy | rfl)
      · exact hy
      · exact h
  · simp [if_neg h]

theorem mem_detect_fold {a : Type} (p : a → Prop) [DecidablePred p]
    (key : a → String) (l : List a) (init : List String) (x : String) :
    (x ∈ l.foldl
        (fun acc e => if p e then setAdd acc (key e) else acc) init) ↔
      x ∈ init ∨ ∃ e ∈ l, p e ∧ key e = x := by
  induction l generalizing init with
  | nil => simp
  | cons e l ih =>
    rw [List.foldl_cons]
    by_cases h : p e
    · rw [if_pos h, ih]
      simp only [setAdd_mem, List.mem_cons]
      constructor
      · rintro ((hx | rfl) | ⟨e', he', hp, hk⟩)
        · exact Or.inl hx
        · exact Or.inr ⟨e, Or.inl rfl, h, rfl⟩
        · exact Or.inr ⟨e', Or.inr he', hp, hk⟩
      · rintro (hx | ⟨e', (rfl | he'), hp, hk⟩)
        · exact Or.inl (Or.inl hx)
        · exact Or.inl (Or.inr hk.symm)
        · exact Or.inr ⟨e', he', hp, hk⟩
    · rw [if_neg h, ih]
      simp only [List.mem_cons]
      constructor
      · rintro (hx | ⟨e', he', hp, hk⟩)
        · exact Or.inl hx
        · exact Or.inr ⟨e', Or.inr he', hp, hk⟩
      · rintro (hx | ⟨e', (rfl | he'), hp, hk⟩)
        · exact Or.inl hx
        · exact absurd hp h
        · exact Or.inr ⟨e', he', hp, hk⟩

/-- **C5.** `detectChanges` and the content hash:
(1) a node unchanged since the last sync (its hash equals the snapshot
entry) is never marked dirty;
(2) a node whose hash differs from (or is absent from) the snapshot entry —
equivalently, some persisted field among id/type/position/label/title/
description/detailedContent/imageUrl/childrenCount/isExpanding/followUp
changed — is marked dirty, and likewise an edge whose persisted
source/target/type/style subset changed;
(3) the hash ignores every transient field (selection, hidden flag, measured
sizes, error, busy flags, panel expansion, derived questions state, …), so a
change that touches only those never marks the entity dirty. -/
theorem detectChanges_spec (st : SyncState) (nodes : List Node)
    (edges : List Edge) :
    (∀ n ∈ nodes, (nodes.map Node.id).Nodup →
      mapGet st.lastSyncedNodes n.id = some (getNodeHash n) →
      n.id ∉ st.dirtyNodes →
      n.id ∉ (detectChanges st nodes edges).dirtyNodes) ∧
    (∀ n ∈ nodes, mapGet st.lastSyncedNodes n.id ≠ some (getNodeHash n) →
      n.id ∈ (detectChanges st nodes edges).dirtyNodes) ∧
    (∀ e ∈ edges, (edges.map Edge.id).Nodup →
      mapGet st.lastSyncedEdges e.id = some (getEdgeHash e) →
      e.id ∉ st.dirtyEdges →
      e.id ∉ (detectChanges st nodes edges).dirtyEdges) ∧
    (∀ e ∈ edges, mapGet st.lastSyncedEdges e.id ≠ some (getEdgeHash e) →
      e.id ∈ (detectChanges st nodes edges).dirtyEdges) ∧
    (∀ (n : Node) (hid sel b1 b2 b3 b4 : Bool) (dims ms : Option Dim)
        (err : Option String) (fl rc : String) (hdc : Int),
      getNodeHash (transientUpdate n hid sel b1 b2 b3 b4 dims ms err fl rc hdc)
        = getNodeHash n) ∧
    (∀ (e : Edge) (anim hid : Bool),
      getEdgeHash { e with animated := anim, hidden := hid } = getEdgeHash e) := by
  have hdirtyN : ∀ x, x ∈ (detectChanges st nodes edges).dirtyNodes ↔
      x ∈ st.dirtyNodes ∨ ∃ n ∈ nodes,
        mapGet st.lastSyncedNodes n.id ≠ some (getNodeHash n) ∧ n.id = x := by
    intro x
    exact mem_detect_fold
      (fun n => mapGet st.lastSyncedNodes n.id ≠ some (getNodeHash n))
      Node.id nodes st.dirtyNodes x
  have hdirtyE : ∀ x, x ∈ (detectChanges st nodes edges).dirtyEdges ↔
      x ∈ st.dirtyEdges ∨ ∃ e ∈ edges,
        mapGet st.lastSyncedEdges e.id ≠ some (getEdgeHash e) ∧ e.id = x := by
    intro x
    exact mem_detect_fold
      (fun e => mapGet st.lastSyncedEdges e.id ≠ some (getEdgeHash e))
      Edge.id edges st.dirtyEdges x
  refine ⟨?_, ?_, ?_, ?_, ?_, ?_⟩
  · intro n hn hnodup hclean hdirty hmem
    rcases (hdirtyN n.id).mp hmem with hx | ⟨m, hm, hne, hid⟩
    · exact hdirty hx
    · have : m = n := List.inj_on_of_nodup_map hnodup hm hn hid
      rw [this] at hne
      exact hne hclean
  · intro n hn hne
    exact (hdirtyN n.id).mpr (Or.inr ⟨n, hn, hne, rfl⟩)
  · intro e he hnodup hclean hdirty hmem
    rcases (hdirtyE e.id).mp hmem with hx | ⟨f, hf, hne, hid⟩
    · exact hdirty hx
    · have : f = e := List.inj_on_of_nodup_map hnodup hf he hid
      rw [this] at hne
      exact hne hclean
  · intro e he hne
    exact (hdirtyE e.id).mpr (Or.inr ⟨e, he, hne, rfl⟩)
  · intro n hid sel b1 b2 b3 b4 dims ms err fl rc hdc
    rfl
  · intro e anim hid
    rfl

theorem detectChanges_spec_witness :
    "n1" ∈ (detectChanges
      { lastSyncedNodes := [("n1",
          { id := "n1", type := "window", position := ⟨0, 0⟩, label := "L",
            title := "", description := "", detailedContent := "",
            imageUrl := "", childrenCount := 0, isExpanding := false,
            followUp := "" })] }
      [{ id := "n1", position := ⟨5, 0⟩, data := { label := "L" } }]
      []).dirtyNodes :=
  (detectChanges_spec
      { lastSyncedNodes := [("n1",
          { id := "n1", type := "window", position := ⟨0, 0⟩, label := "L",
            title := "", description := "", detailedContent := "",
            imageUrl := "", childrenCount := 0, isExpanding := false,
            followUp := "" })] }
      [{ id := "n1", position := ⟨5, 0⟩, data := { label := "L" } }]
      []).2.1
    { id := "n1", position := ⟨5, 0⟩, data := { label := "L" } }
    (by decide) (by decide)

/-- **C8 (amended).** With an authenticated user and a selected project, a
save with an empty dirty set returns success, issues zero upsert calls and
leaves the tracking state (snapshot, dirty/deleted sets, flags) exactly
unchanged — for nodes and for edges alike. -/
theorem save_skips_when_clean (proj : String) (st : SyncState)
    (nodes : List Node) (edges : List Edge) (e1 e2 : Option String)
    (hn : st.dirtyNodes = []) (he : st.dirtyEdges = []) :
    saveNodesToCloud true (some proj) st nodes e1 = ⟨true, st, 0⟩ ∧
    saveEdgesToCloud true (some proj) st edges e2 = ⟨true, st, 0⟩ := by
  constructor
  · unfold saveNodesToCloud
    rw [if_neg (by simp), if_pos (by rw [hn]; rfl)]
  · unfold saveEdgesToCloud
    rw [if_neg (by simp), if_pos (by rw [he]; rfl)]

theorem save_skips_when_clean_witness :
    saveNodesToCloud true (some "p1") {} [] none
      = ⟨true, {}, 0⟩ :=
  (save_skips_when_clean "p1" {} [] [] none none rfl rfl).1

/-- **C8 counterexample.** The claim as stated fails without the
authentication guard: with no authenticated user (or no selected project)
`saveNodesToCloud` returns `false` — not success — even though the dirty set
is empty (it still issues no upsert call and leaves the state unchanged). -/
theorem save_unauthenticated_returns_failure :
    ({} : SyncState).dirtyNodes = [] ∧
    saveNodesToCloud false none {} [] none = ⟨false, {}, 0⟩ := by
  constructor
  · rfl
  · unfold saveNodesToCloud
    rw [if_pos (by simp)]

/-!
## String machinery shared by the streaming pipeline

JS strings are modelled as `List Char`.  All functions below are structural
or fuel-based so that concrete runs kernel-evaluate (`decide`).
-/

/-- JS `\s` / `String.prototype.trim` whitespace (the ASCII part; the
pipeline's buffers are AI-generated JSON text). -/
def isJsWs (c : Char) : Bool :=
  c = ' ' || c = '\t' || c = '\n' || c = '\r' || c = '\x0b' || c = '\x0c'

/-- Drop leading JS whitespace. -/
def skipJsWs (cs : List Char) : List Char := cs.dropWhile isJsWs

/-- JS `String.prototype.trim`. -/
def trimChars (cs : List Char) : List Char :=
  ((cs.dropWhile isJsWs).reverse.dropWhile isJsWs).reverse

/-- ASCII lower-casing, for the case-insensitive `json` fence tag. -/
def toLowerAscii (c : Char) : Char :=
  if 'A' ≤ c ∧ c ≤ 'Z' then Char.ofNat (c.toNat + 32) else c

/-- Consume an exact literal. -/
def expectLit (lit cs : List Char) : Option (List Char) :=
  if lit.isPrefixOf cs then some (cs.drop lit.length) else none

/-- `stripJsonFences` (useThinkFlow.ts 1769-1783): trim, strip a leading
Markdown fence ```` ```json ```` (case-insensitive tag, then `\s*\n?`), strip
a trailing ```` \n?``` ````, and trim again.  Without a leading fence the
input is only trimmed. -/
def stripJsonFences (cs : List Char) : List Char :=
  let trimmed := trimChars cs
  if ("```".data).isPrefixOf trimmed then
    let afterTicks := trimmed.drop 3
    let afterTag :=
      if (afterTicks.take 4).map toLowerAscii = "json".data
      then afterTicks.drop 4 else afterTicks
    -- `\s*` is greedy and includes newlines, so the trailing `\n?` of the
    -- start regex never consumes anything.
    let content := afterTag.dropWhile isJsWs
    let content :=
      if ("```".data).isSuffixOf content then
        let base := content.take (content.length - 3)
        if base ≠ [] ∧ base.getLast? = some '\n'
        then base.take (base.length - 1) else base
      else content
    trimChars content
  else trimmed

/-!
### The incremental regex pass

`nodeRegex = /\{\s*"text"\s*:\s*"((?:[^"\\]|\\.)*)"\s*,\s*"description"\s*:\s*"((?:[^"\\]|\\.)*)"\s*\}/g`
`overviewRegex = /"overview"\s*:\s*"((?:[^"\\]|\\.)*)"/`

The string-content group `(?:[^"\\]|\\.)*` can never cross an unescaped
quote, so its (greedy, backtracking) match is the deterministic scan below:
consume a non-quote non-backslash character, or a backslash plus any
non-line-terminator character, and stop at the first unescaped quote.
-/

/-- Scan `((?:[^"\\]|\\.)*)"`: return the raw group content (escapes kept
verbatim) and the remainder after the closing quote; `none` when no
unescaped closing quote completes the group (`.` does not match `\n`/`\r`).
-/
def scanStrContent : List Char → Option (List Char × List Char)
  | [] => none
  | '"' :: rest => some ([], rest)
  | '\\' :: [] => none
  | '\\' :: c2 :: rest =>
    if c2 = '\n' ∨ c2 = '\r' then none
    else
      match scanStrContent rest with
      | some (cont, r) => some ('\\' :: c2 :: cont, r)
      | none => none
  | c :: rest =>
    match scanStrContent rest with
    | some (cont, r) => some (c :: cont, r)
    | none => none

/-- Try `nodeRegex` with the leading `{` already consumed: returns the two
raw group contents and the rest of the input after the match. -/
def tryMatchNodeAt (cs0 : List Char) : Option (List Char × List Char × List Char) :=
  match expectLit "\"text\"".data (skipJsWs cs0) with
  | none => none
  | some cs1 =>
    match expectLit [':'] (skipJsWs cs1) with
    | none => none
    | some cs2 =>
      match expectLit ['"'] (skipJsWs cs2) with
      | none => none
      | some cs3 =>
        match scanStrContent cs3 with
        | none => none
        | some (text, cs4) =>
          match expectLit [','] (skipJsWs cs4) with
          | none => none
          | some cs5 =>
            match expectLit "\"description\"".data (skipJsWs cs5) with
            | none => none
            | some cs6 =>
              match expectLit [':'] (skipJsWs cs6) with
              | none => none
              | some cs7 =>
                match expectLit ['"'] (skipJsWs cs7) with
                | none => none
                | some cs8 =>
                  match scanStrContent cs8 with
                  | none => none
                  | some (desc, cs9) =>
                    match expectLit ['}'] (skipJsWs cs9) with
                    | none => none
                    | some cs10 => some (text, desc, cs10)

/-- `matchAll(nodeRegex)`: leftmost non-overlapping matches, resuming after
each match.  One unit of fuel is spent per input position, so
`fuel = cs.length` always suffices (a match consumes at least one char). -/
def nodeMatchesAux : Nat → List Char → List (List Char × List Char)
  | 0, _ => []
  | _ + 1, [] => []
  | fuel + 1, c :: rest =>
    if c = '{' then
      match tryMatchNodeAt rest with
      | some (t, d, rest') => (t, d) :: nodeMatchesAux fuel rest'
      | none => nodeMatchesAux fuel rest
    else nodeMatchesAux fuel rest

def nodeMatches (cs : List Char) : List (List Char × List Char) :=
  nodeMatchesAux cs.length cs

/-- Try `overviewRegex` with the leading `"` already consumed: returns the
raw group content. -/
def tryMatchOverviewAt (cs0 : List Char) : Option (List Char) :=
  match expectLit "overview\"".data cs0 with
  | none => none
  | some cs1 =>
    match expectLit [':'] (skipJsWs cs1) with
    | none => none
    | some cs2 =>
      match expectLit ['"'] (skipJsWs cs2) with
      | none => none
      | some cs3 =>
        match scanStrContent cs3 with
        | some (content, _) => some content
        | none => none

/-- `stripped.match(overviewRegex)`: first (leftmost) match's group. -/
def overviewMatchAux : Nat → List Char → Option (List Char)
  | 0, _ => none
  | _ + 1, [] => none
  | fuel + 1, c :: rest =>
    if c = '"' then
      match tryMatchOverviewAt rest with
      | some content => some content
      | none => overviewMatchAux fuel rest
    else overviewMatchAux fuel rest

def overviewMatch (cs : List Char) : Option (List Char) :=
  overviewMatchAux cs.length cs

/-- `.replace(/\\"/g, '"')`. -/
def unescQuotes : List Char → List Char
  | '\\' :: '"' :: rest => '"' :: unescQuotes rest
  | c :: rest => c :: unescQuotes rest
  | [] => []

/-- `.replace(/\\n/g, "\n")`. -/
def unescNewlines : List Char → List Char
  | '\\' :: 'n' :: rest => '\n' :: unescNewlines rest
  | c :: rest => c :: unescNewlines rest
  | [] => []

/-- The unescaping the incremental pass applies to regex group contents. -/
def unescapeJs (cs : List Char) : List Char := unescNewlines (unescQuotes cs)

/-!
## JSON values and `JSON.parse`

A executable model of the runtime's `JSON.parse` for the streamed payloads:
full JSON strings (with escapes), objects, arrays, literals and numeric
literals (numbers are kept as their source text — no claim depends on a
numeric value).  Later duplicate object keys win, as in JS.
-/

inductive Json where
  | null : Json
  | bool (b : Bool) : Json
  | num (lit : List Char) : Json
  | str (s : List Char) : Json
  | arr (items : List Json) : Json
  | obj (fields : List (List Char × Json)) : Json
deriving Repr

def hexVal (c : Char) : Option Nat :=
  if '0' ≤ c ∧ c ≤ '9' then some (c.toNat - 48)
  else if 'a' ≤ c ∧ c ≤ 'f' then some (c.toNat - 87)
  else if 'A' ≤ c ∧ c ≤ 'F' then some (c.toNat - 55)
  else none

/-- JSON string body after the opening quote: decoded content and rest after
the closing quote.  Raw control characters and invalid escapes are parse
errors, as in `JSON.parse`.  (`\uXXXX` is decoded via `Char.ofNat`; lone
UTF-16 surrogates have no `Char` counterpart and map to its fallback.) -/
def parseJsonStringRest : List Char → Option (List Char × List Char)
  | [] => none
  | '"' :: rest => some ([], rest)
  | '\\' :: 'u' :: h1 :: h2 :: h3 :: h4 :: rest =>
    (match hexVal h1, hexVal h2, hexVal h3, hexVal h4 with
     | some a, some b, some c, some d =>
       match parseJsonStringRest rest with
       | some (s, r) => some (Char.ofNat (((a * 16 + b) * 16 + c) * 16 + d) :: s, r)
       | none => none
     | _, _, _, _ => none)
  | '\\' :: e :: rest =>
    (match
      (if e = '"' then some '"'
       else if e = '\\' then some '\\'
       else if e = '/' then some '/'
       else if e = 'b' then some '\x08'
       else if e = 'f' then some '\x0c'
       else if e = 'n' then some '\n'
       else if e = 'r' then some '\r'
       else if e = 't' then some '\t'
       else none) with
     | some ch =>
       match parseJsonStringRest rest with
       | some (s, r) => some (ch :: s, r)
       | none => none
     | none => none)
  | c :: rest =>
    if c.toNat < 32 then none
    else
      match parseJsonStringRest rest with
      | some (s, r) => some (c :: s, r)
      | none => none

/-- Longest digit prefix. -/
def scanDigits : List Char → List Char × List Char
  | [] => ([], [])
  | c :: rest =>
    if c.isDigit then
      let (d, r) := scanDigits rest
      (c :: d, r)
    else ([], c :: rest)

/-- JSON number literal (sign, integer part without leading zeros, optional
fraction and exponent); returns the literal text and the rest. -/
def parseJsonNumber (cs : List Char) : Option (List Char × List Char) :=
  let p1 :=
    match cs with
    | '-' :: r => (['-'], r)
    | _ => (([] : List Char), cs)
  let intPart : Option (List Char × List Char) :=
    match p1.2 with
    | '0' :: r => some (['0'], r)
    | c :: r =>
      if c.isDigit then
        let d := scanDigits r
        some (c :: d.1, d.2)
      else none
    | [] => none
  match intPart with
  | none => none
  | some (ip, cs2) =>
    let fracPart : Option (List Char × List Char) :=
      match cs2 with
      | '.' :: r =>
        (match scanDigits r with
         | ([], _) => none
         | (d, rr) => some ('.' :: d, rr))
      | _ => some ([], cs2)
    match fracPart with
    | none => none
    | some (fp, cs3) =>
      let expPart : Option (List Char × List Char) :=
        match cs3 with
        | c :: r =>
          if c = 'e' ∨ c = 'E' then
            let sp :=
              match r with
              | s :: rr => if s = '+' ∨ s = '-' then ([s], rr) else (([] : List Char), r)
              | [] => (([] : List Char), [])
            match scanDigits sp.2 with
            | ([], _) => none
            | (d, rr) => some (c :: (sp.1 ++ d), rr)
          else some ([], c :: r)
        | [] => some ([], [])
      match expPart with
      | none => none
      | some (ep, cs4) => some (p1.1 ++ ip ++ fp ++ ep, cs4)

mutual

/-- `JSON.parse` value parser; fuel decreases on every recursive call and
`2·|input| + 2` always suffices. -/
def parseJsonValue : Nat → List Char → Option (Json × List Char)
  | 0, _ => none
  | fuel + 1, cs0 =>
    match skipJsWs cs0 with
    | [] => none
    | '"' :: rest =>
      (match parseJsonStringRest rest with
       | some (s, r) => some (.str s, r)
       | none => none)
    | '{' :: rest =>
      (match skipJsWs rest with
       | '}' :: r2 => some (.obj [], r2)
       | r2 =>
         match parseJsonObjFields fuel r2 with
         | some (fs, r3) => some (.obj fs, r3)
         | none => none)
    | '[' :: rest =>
      (match skipJsWs rest with
       | ']' :: r2 => some (.arr [], r2)
       | r2 =>
         match parseJsonArrItems fuel r2 with
         | some (items, r3) => some (.arr items, r3)
         | none => none)
    | cs =>
      match expectLit "true".data cs with
      | some r => some (.bool true, r)
      | none =>
        match expectLit "false".data cs with
        | some r => some (.bool false, r)
        | none =>
          match expectLit "null".data cs with
          | some r => some (.null, r)
          | none =>
            match parseJsonNumber cs with
            | some (lit, r) => some (.num lit, r)
            | none => none

/-- Comma-separated array items up to the closing `]`. -/
def parseJsonArrItems : Nat → List Char → Option (List Json × List Char)
  | 0, _ => none
  | fuel + 1, cs =>
    match parseJsonValue fuel cs with
    | none => none
    | some (v, r) =>
      match skipJsWs r with
      | ',' :: r2 =>
        (match parseJsonArrItems fuel r2 with
         | some (vs, r3) => some (v :: vs, r3)
         | none => none)
      | ']' :: r2 => some ([v], r2)
      | _ => none

/-- Comma-separated `"key": value` fields up to the closing `}`. -/
def parseJsonObjFields : Nat → List Char → Option (List (List Char × Json) × List Char)
  | 0, _ => none
  | fuel + 1, cs =>
    match skipJsWs cs with
    | '"' :: rest =>
      (match parseJsonStringRest rest with
       | none => none
       | some (key, r) =>
         match skipJsWs r with
         | ':' :: r2 =>
           (match parseJsonValue fuel r2 with
            | none => none
            | some (v, r3) =>
              match skipJsWs r3 with
              | ',' :: r4 =>
                (match parseJsonObjFields fuel r4 with
                 | some (fs, r5) => some ((key, v) :: fs, r5)
                 | none => none)
              | '}' :: r4 => some ([(key, v)], r4)
              | _ => none)
         | _ => none)
    | _ => none

end

/-- `JSON.parse`: a single value covering the whole (whitespace-padded)
input. -/
def jsonParse (cs : List Char) : Option Json :=
  match parseJsonValue (2 * cs.length + 2) cs with
  | some (v, r) => if skipJsWs r = [] then some v else none
  | none => none

/-- JS property access on a parsed object (`undefined` elsewhere); later
duplicate keys win as in `JSON.parse`. -/
def jsonField (v : Json) (key : List Char) : Option Json :=
  match v with
  | .obj fs => fs.foldl (fun acc p => if p.1 = key then some p.2 else acc) none
  | _ => none

/-!
## Follow-up completion (`expandIdea` else-branch, useThinkFlow.ts 2628-2650)
-/

/-- The stream-end step of a follow-up expansion: try to parse the full text
as `{ answer, summary }`; on success use a truthy `answer`/`summary` (the
protocol makes these strings; an empty string is falsy and falls back), on
failure keep the raw streamed text and leave the summary empty.  Returns
`(answerContent, summaryContent)`. -/
def finalizeFollowUp (raw : List Char) : List Char × List Char :=
  match jsonParse (stripJsonFences raw) with
  | none => (raw, [])
  | some v =>
    let answer :=
      match jsonField v "answer".data with
      | some (.str s) => if s = [] then raw else s
      | _ => raw
    let summary :=
      match jsonField v "summary".data with
      | some (.str s) => s
      | _ => []
    (answer, summary)

/-- The `updateNode(childId, ...)` write at follow-up completion. -/
def applyFollowUpResult (nodes : List Node) (childId : String)
    (raw : List Char) : List Node :=
  let r := finalizeFollowUp raw
  nodes.map (fun n =>
    if n.id = childId then
      { n with data := { n.data with
          detailedContent := String.mk r.1
          description := String.mk r.2
          isExpanding := false
          error := none } }
    else n)

/-- **C9.** When the completed follow-up stream text fails to parse as
`{ answer, summary }` JSON, the expansion still settles cleanly: the raw
streamed text becomes the child's long-form content, the short description
is left unset, the busy flag is cleared, and no error is written. -/
theorem followUp_parse_failure_nonfatal (nodes : List Node) (childId : String)
    (raw : List Char)
    (hfail : jsonParse (stripJsonFences raw) = none) :
    applyFollowUpResult nodes childId raw
      = nodes.map (fun n =>
          if n.id = childId then
            { n with data := { n.data with
                detailedContent := String.mk raw
                description := ""
                isExpanding := false
                error := none } }
          else n) := by
  unfold applyFollowUpResult finalizeFollowUp
  rw [hfail]

theorem followUp_parse_failure_nonfatal_witness :
    applyFollowUpResult
        [{ id := "c1", position := ⟨0, 0⟩,
           data := { type := "child", isExpanding := true } }] "c1"
        "not json at all".data
      = [{ id := "c1", position := ⟨0, 0⟩,
           data := { type := "child", isExpanding := false,
                     detailedContent := "not json at all",
                     description := "", error := none } }] := by
  rw [followUp_parse_failure_nonfatal _ _ _ (by rfl)]
  decide

/-!
## Root-creation streaming pipeline (`expandIdea`, useThinkFlow.ts 2239-2448)

The SSE layer (`readSSEStream`, 1788-1831) reassembles the streamed
`delta.content` fragments in arrival order, so `onDelta` sees the sequence of
growing prefixes of the final content; the raw content is modelled as an
arbitrary list of content deltas.  `Date.now()` values are supplied by an
arbitrary clock `times : Nat → Nat` indexed by the creation counter.
-/

/-- The configuration the pipeline reads when creating edges. -/
structure RootStreamConfig where
  edgeType : String := "smoothstep"
  edgeColor : String := ""
deriving DecidableEq, Repr

/-- `` `node-${Date.now()}-${i}` ``. -/
def childIdStr (t i : Nat) : String :=
  "node-" ++ Nat.repr t ++ "-" ++ Nat.repr i

/-- The child node created by the incremental pass and by the final-parse
backfill (useThinkFlow.ts 2362-2378 and 2420-2436; both create the same
data shape). -/
def mkStreamChild (t i : Nat) (label desc : String) (pos : Pos) : Node :=
  { id := childIdStr t i
    type := "window"
    position := pos
    data := { label := label
              description := desc
              type := "child"
              followUp := ""
              isExpanding := false
              isImageLoading := false
              isTitleExpanded := false
              error := none } }

/-- The connecting edge `` `e-${rootId}-${childId}` `` (2380-2388,
2438-2446). -/
def mkStreamEdge (cfg : RootStreamConfig) (rootId childId : String) : Edge :=
  { id := "e-" ++ rootId ++ "-" ++ childId, source := rootId,
    target := childId, animated := true, type := cfg.edgeType,
    style := { stroke := cfg.edgeColor, strokeWidth := 2 } }

/-- The root node created before the request (useThinkFlow.ts 2248-2266). -/
def mkRootNode (rootId label : String) (pos : Pos) : Node :=
  { id := rootId
    type := "window"
    position := pos
    data := { label := label
              description := ""
              type := "root"
              isExpanding := true
              isTitleExpanded := false
              followUp := ""
              error := none } }

/-- `updateNode(id, { data: ... })` guarded by a `find` (the source reads the
found node's data and writes the updated record back). -/
def updateNodeDataIfPresent (g : Graph) (id : String)
    (f : NodeData → NodeData) : Graph :=
  match g.nodes.find? (fun n => n.id = id) with
  | none => g
  | some node =>
    { g with nodes := g.nodes.map (fun n =>
        if n.id = id then { n with data := f node.data } else n) }

/-- `rootNode ? rootNode.position : {x: 50, y: 300}` (2346-2348). -/
def rootPosOr (g : Graph) (rootId : String) : Pos :=
  match g.nodes.find? (fun n => n.id = rootId) with
  | some n => n.position
  | none => ⟨50, 300⟩

/-- The mutable state captured by the `onDelta` closure. -/
structure RootStreamState where
  g : Graph
  rendered : Nat
  overviewSet : Bool
  nowIdx : Nat
deriving Repr

/-- The overview extraction of one `onDelta` invocation (useThinkFlow.ts
2322-2341): the first time the overview group matches, write it into the
root node. -/
def overviewStage (rootId : String) (st : RootStreamState)
    (stripped : List Char) : RootStreamState :=
  if st.overviewSet then st
  else
    match overviewMatch stripped with
    | some ov =>
      { st with
        overviewSet := true
        g := updateNodeDataIfPresent st.g rootId (fun d =>
          { d with
            description := String.mk (unescapeJs ov)
            isExpanding := true
            error := none }) }
    | none => st

/-- The child materialization of one `onDelta` invocation (useThinkFlow.ts
2343-2391): a child node and edge for every regex match beyond the last
seen count. -/
def matchStage (cfg : RootStreamConfig) (rootId : String) (times : Nat → Nat)
    (st : RootStreamState) (stripped : List Char) : RootStreamState :=
  let ms := nodeMatches stripped
  if ms.length > st.rendered then
    let base := rootPosOr st.g rootId
    let totalEstimate : Nat := max ms.length 5
    let idxs := List.range' st.rendered (ms.length - st.rendered)
    let newNodes := idxs.map (fun i =>
      let p := ms.getD i ([], [])
      mkStreamChild (times (st.nowIdx + (i - st.rendered))) i
        (String.mk (unescapeJs p.1)) (String.mk (unescapeJs p.2))
        ⟨base.x + 450, base.y + ((i : ℚ) - ((totalEstimate : ℚ) - 1) / 2) * 280⟩)
    let newEdges := idxs.map (fun i =>
      mkStreamEdge cfg rootId (childIdStr (times (st.nowIdx + (i - st.rendered))) i))
    { g := { nodes := st.g.nodes ++ newNodes, edges := st.g.edges ++ newEdges },
      rendered := ms.length,
      overviewSet := st.overviewSet,
      nowIdx := st.nowIdx + (ms.length - st.rendered) }
  else st

/-- One `onDelta` invocation of the root-creation stream (2319-2392). -/
def streamStep (cfg : RootStreamConfig) (rootId : String) (times : Nat → Nat)
    (st : RootStreamState) (full : List Char) : RootStreamState :=
  matchStage cfg rootId times
    (overviewStage rootId st (stripJsonFences full)) (stripJsonFences full)

/-- `readSSEStream` + `onDelta`: fold the steps over the growing content
prefixes; returns the final state and the accumulated raw content. -/
def runRootStream (cfg : RootStreamConfig) (rootId : String)
    (times : Nat → Nat) :
    List (List Char) → RootStreamState → List Char →
      RootStreamState × List Char
  | [], st, full => (st, full)
  | d :: ds, st, full =>
    runRootStream cfg rootId times ds
      (streamStep cfg rootId times st (full ++ d)) (full ++ d)

/-- `item.text` / `item.description` of a parsed node item (the protocol
makes these strings; anything else is `undefined`-like and lands as the
empty default). -/
def jsonItemStr (j : Json) (key : List Char) : String :=
  match jsonField j key with
  | some (.str s) => String.mk s
  | _ => ""

/-- Stream end (useThinkFlow.ts 2394-2448): authoritative `JSON.parse` of
the full buffer; the parsed `overview` (when truthy) overwrites the root's
description, and nodes the incremental pass missed are backfilled by count.
A parse failure throws, and the catch block (2473-2484) writes the
engine-specific `SyntaxError` message into the root's error field. -/
def finishRootStream (cfg : RootStreamConfig) (rootId : String)
    (times : Nat → Nat) (st : RootStreamState) (raw : List Char) : Graph :=
  match jsonParse (stripJsonFences raw) with
  | none =>
    updateNodeDataIfPresent st.g rootId (fun d =>
      { d with
        error := some "JSON parse error"
        isExpanding := false })
  | some v =>
    let g1 := updateNodeDataIfPresent st.g rootId (fun d =>
      { d with
        description :=
          match jsonField v "overview".data with
          | some (.str s) => if s ≠ [] then String.mk s else d.description
          | _ => d.description
        isExpanding := false
        error := none })
    let finalNodes :=
      match jsonField v "nodes".data with
      | some (.arr items) => items
      | _ => []
    if finalNodes.length > st.rendered then
      let base := rootPosOr g1 rootId
      let idxs := List.range' st.rendered (finalNodes.length - st.rendered)
      let newNodes := idxs.map (fun i =>
        let item := finalNodes.getD i .null
        mkStreamChild (times (st.nowIdx + (i - st.rendered))) i
          (jsonItemStr item "text".data) (jsonItemStr item "description".data)
          ⟨base.x + 450,
           base.y + ((i : ℚ) - ((finalNodes.length : ℚ) - 1) / 2) * 280⟩)
      let newEdges := idxs.map (fun i =>
        mkStreamEdge cfg rootId
          (childIdStr (times (st.nowIdx + (i - st.rendered))) i))
      { nodes := g1.nodes ++ newNodes, edges := g1.edges ++ newEdges }
    else g1

/-- The whole root-creation expansion for a streamed response delivered as
`deltas`: clear the canvas, create the root, run the incremental pass over
every prefix, then reconcile with the final parse. -/
def expandRootFromStream (cfg : RootStreamConfig) (rootId rootText : String)
    (rootPos : Pos) (times : Nat → Nat) (deltas : List (List Char)) : Graph :=
  let initial : RootStreamState :=
    { g := ⟨[mkRootNode rootId rootText rootPos], []⟩,
      rendered := 0, overviewSet := false, nowIdx := 0 }
  let r := runRootStream cfg rootId times deltas initial []
  finishRootStream cfg rootId times r.1 r.2

/-- The synthetic stream buffer of the spec's reconciliation property. -/
def sJson : List Char :=
  "\x7b\"overview\":\"O\",\"nodes\":[\x7b\"text\":\"A\",\"description\":\"dA\"\x7d,\x7b\"text\":\"B\",\"description\":\"dB\"\x7d]\x7d".data

/-- The two node payloads of the synthetic buffer, as raw regex group
contents. -/
def c1Final : List (List Char × List Char) :=
  [("A".data, "dA".data), ("B".data, "dB".data)]

/-- Number of complete `nodeRegex` matches in the stripped `k`-char prefix
of the raw content `R`. -/
def c1Count (R : List Char) (k : Nat) : Nat :=
  (nodeMatches (stripJsonFences (R.take k))).length

/-- `JSON.parse` of the synthetic buffer. -/
def c1ParsedJson : Json :=
  .obj [("overview".data, .str "O".data),
        ("nodes".data, .arr [
          .obj [("text".data, .str "A".data),
                ("description".data, .str "dA".data)],
          .obj [("text".data, .str "B".data),
                ("description".data, .str "dB".data)]])]

/-!
### Structure of `stripJsonFences`

`stripJsonFences` written as two explicitly staged functions (proved equal
to the source model definitionally), plus trimming/append lemmas used to
invert it: every buffer it maps to the synthetic JSON is whitespace, then
optionally a ```` ``` ```` fence with an optional case-insensitive `json`
tag, then whitespace, then the JSON, then optional whitespace, an optional
closing fence and trailing whitespace.
-/

def stripStage2 (content : List Char) : List Char :=
  trimChars
    (if ("```".data).isSuffixOf content then
      if content.take (content.length - 3) ≠ [] ∧
          (content.take (content.length - 3)).getLast? = some '\n'
      then (content.take (content.length - 3)).take
             ((content.take (content.length - 3)).length - 1)
      else content.take (content.length - 3)
     else content)

def stripStage1 (trimmed : List Char) : List Char :=
  if ("```".data).isPrefixOf trimmed then
    stripStage2
      ((if ((trimmed.drop 3).take 4).map toLowerAscii = "json".data
        then (trimmed.drop 3).drop 4
        else trimmed.drop 3).dropWhile isJsWs)
  else trimmed

theorem stripJsonFences_eq_stages (cs : List Char) :
    stripJsonFences cs = stripStage1 (trimChars cs) := rfl

theorem dropWhile_ws_append {w y : List Char} (hw : ∀ c ∈ w, isJsWs c = true) :
    (w ++ y).dropWhile isJsWs = y.dropWhile isJsWs := by
  induction w with
  | nil => rfl
  | cons c cs ih =>
    rw [List.cons_append, List.dropWhile_cons, if_pos (hw c (List.mem_cons_self c cs))]
    exact ih (fun x hx => hw x (List.mem_cons_of_mem c hx))

theorem dropWhile_eq_self_of_head {y : List Char}
    (h : ∀ c, y.head? = some c → isJsWs c = false) :
    y.dropWhile isJsWs = y := by
  cases y with
  | nil => rfl
  | cons c cs =>
    rw [List.dropWhile_cons, if_neg]
    simp [h c rfl]

theorem trimChars_ws_append {w y : List Char} (hw : ∀ c ∈ w, isJsWs c = true) :
    trimChars (w ++ y) = trimChars y := by
  unfold trimChars
  rw [dropWhile_ws_append hw]

theorem trimChars_append_ws {y w : List Char} (hw : ∀ c ∈ w, isJsWs c = true) :
    trimChars (y ++ w) = trimChars y := by
  unfold trimChars
  rw [List.dropWhile_append]
  by_cases hy : (y.dropWhile isJsWs).isEmpty
  · rw [if_pos hy]
    have hw0 : w.dropWhile isJsWs = [] :=
      List.dropWhile_eq_nil_iff.mpr (fun c hc => hw c hc)
    have hy0 : y.dropWhile isJsWs = [] := by
      cases hyy : y.dropWhile isJsWs with
      | nil => rfl
      | cons a l => rw [hyy] at hy; simp [List.isEmpty] at hy
    rw [hw0, hy0]
  · rw [if_neg hy, List.reverse_append,
      dropWhile_ws_append (fun c hc => hw c (List.mem_reverse.mp hc))]

theorem trimChars_eq_self {y : List Char}
    (h1 : ∀ c, y.head? = some c → isJsWs c = false)
    (h2 : ∀ c, y.getLast? = some c → isJsWs c = false) : trimChars y = y := by
  unfold trimChars
  rw [dropWhile_eq_self_of_head h1]
  have hd2 : y.reverse.dropWhile isJsWs = y.reverse := by
    refine dropWhile_eq_self_of_head ?_
    intro c hc
    rw [List.head?_reverse] at hc
    exact h2 c hc
  rw [hd2, List.reverse_reverse]

theorem trimChars_sublist (x : List Char) : List.Sublist (trimChars x) x := by
  unfold trimChars
  have h1 : List.Sublist (x.dropWhile isJsWs) x := List.dropWhile_sublist _
  have h2 : List.Sublist ((x.dropWhile isJsWs).reverse.dropWhile isJsWs)
      (x.dropWhile isJsWs).reverse := List.dropWhile_sublist _
  have h3 := List.reverse_sublist.mpr h2
  rw [List.reverse_reverse] at h3
  exact h3.trans h1

theorem stripStage2_sublist (z : List Char) : List.Sublist (stripStage2 z) z := by
  unfold stripStage2
  split_ifs with h1 h2
  · refine (trimChars_sublist _).trans ?_
    exact ((List.take_sublist _ _).trans (List.take_sublist _ _))
  · refine (trimChars_sublist _).trans ?_
    exact List.take_sublist _ _
  · exact trimChars_sublist z

theorem stripJsonFences_sublist (cs : List Char) :
    List.Sublist (stripJsonFences cs) cs := by
  rw [stripJsonFences_eq_stages]
  refine List.Sublist.trans ?_ (trimChars_sublist cs)
  unfold stripStage1
  split_ifs with h1 h2
  · exact (stripStage2_sublist _).trans ((List.dropWhile_sublist _).trans
      ((List.drop_sublist _ _).trans (List.drop_sublist _ _)))
  · exact (stripStage2_sublist _).trans ((List.dropWhile_sublist _).trans
      (List.drop_sublist _ _))
  · exact List.Sublist.refl _

theorem trim_decomp (R : List Char) :
    ∃ w1 w2 : List Char, R = w1 ++ trimChars R ++ w2 ∧
      (∀ c ∈ w1, isJsWs c = true) ∧ (∀ c ∈ w2, isJsWs c = true) := by
  refine ⟨R.takeWhile isJsWs,
    ((R.dropWhile isJsWs).reverse.takeWhile isJsWs).reverse, ?_, ?_, ?_⟩
  · conv_lhs => rw [← List.takeWhile_append_dropWhile isJsWs R]
    rw [List.append_assoc]
    congr 1
    conv_lhs => rw [← List.reverse_reverse (R.dropWhile isJsWs)]
    conv_lhs =>
      rw [← List.takeWhile_append_dropWhile isJsWs (R.dropWhile isJsWs).reverse]
    rw [List.reverse_append]
    rfl
  · intro c hc
    exact List.mem_takeWhile_imp hc
  · intro c hc
    exact List.mem_takeWhile_imp (List.mem_reverse.mp hc)

theorem head_append_ne_nil {l l' : List Char} (h : l ≠ []) :
    (l ++ l').head? = l.head? := by
  cases l with
  | nil => exact absurd rfl h
  | cons c cs => rfl

theorem getLast_append_ne_nil {l l' : List Char} (h : l' ≠ []) :
    (l ++ l').getLast? = l'.getLast? := by
  rw [← List.head?_reverse, List.reverse_append, head_append_ne_nil, List.head?_reverse]
  intro hc
  exact h (by simpa using congrArg List.reverse hc)

theorem head_of_dropWhile {l : List Char} {c : Char}
    (h : (l.dropWhile isJsWs).head? = some c) : isJsWs c = false := by
  induction l with
  | nil => exact absurd h (by simp)
  | cons a as ih =>
    rw [List.dropWhile_cons] at h
    by_cases ha : isJsWs a = true
    · rw [if_pos ha] at h
      exact ih h
    · rw [if_neg ha] at h
      have : a = c := by simpa using h
      subst this
      simpa using ha

theorem head_mem {l : List Char} {c : Char} (h : l.head? = some c) : c ∈ l := by
  cases l with
  | nil => exact absurd h (by simp)
  | cons a as =>
    have : a = c := by simpa using h
    subst this
    exact List.mem_cons_self a as

theorem eq_append_getLast {l : List Char} {a : Char} (h : l.getLast? = some a) :
    l = l.take (l.length - 1) ++ [a] := by
  have hrev : l.reverse.head? = some a := by rw [List.head?_reverse]; exact h
  cases hl : l.reverse with
  | nil => rw [hl] at hrev; exact absurd hrev (by simp)
  | cons b bs =>
    have hb : b = a := by rw [hl] at hrev; simpa using hrev
    subst hb
    have h2 : l = bs.reverse ++ [b] := by
      have := congrArg List.reverse hl
      simpa using this
    rw [h2]
    have hlen2 : (bs.reverse ++ [b]).length - 1 = bs.reverse.length := by simp
    rw [hlen2, List.take_left]

theorem ticks_prefix_head {y : List Char}
    (h : ("```".data).isPrefixOf y = true) : y.head? = some '`' := by
  obtain ⟨u, hu⟩ := List.isPrefixOf_iff_prefix.mp h
  rw [← hu]
  rfl

/-!
### Junk characters and append-local scanner certification

The reconciliation claim quantifies over every raw buffer that
`stripJsonFences` maps to the synthetic JSON.  The argument reduces such a
buffer's prefixes to (a) decidable facts about prefixes of the bare JSON and
(b) locality lemmas: junk containing no `{` (resp. `"`) can neither start a
regex match, and a match completed inside a buffer is unaffected by whatever
is appended after it.
-/

theorem noBrace_scan (fuel : Nat) :
    ∀ t : List Char, (∀ c ∈ t, c ≠ '{') → nodeMatchesAux fuel t = [] := by
  induction fuel with
  | zero =>
    intro t _
    rfl
  | succ f ih =>
    intro t ht
    cases t with
    | nil => rfl
    | cons c cs =>
      simp only [nodeMatchesAux]
      rw [if_neg (ht c (List.mem_cons_self c cs))]
      exact ih cs (fun x hx => ht x (List.mem_cons_of_mem c hx))

theorem noQuote_scan (fuel : Nat) :
    ∀ t : List Char, (∀ c ∈ t, c ≠ '"') → overviewMatchAux fuel t = none := by
  induction fuel with
  | zero =>
    intro t _
    rfl
  | succ f ih =>
    intro t ht
    cases t with
    | nil => rfl
    | cons c cs =>
      simp only [overviewMatchAux]
      rw [if_neg (ht c (List.mem_cons_self c cs))]
      exact ih cs (fun x hx => ht x (List.mem_cons_of_mem c hx))

/-- A certified run of the node-regex scan over `s`: every position is either
a non-`{` character, a `{` whose match attempt fails on `s ++ t` for every
`t`, or a `{` whose match attempt succeeds with a remainder inside `s`,
uniformly in the appended `t`. -/
inductive CleanScan : List Char → List (List Char × List Char) → Prop
  | nil : CleanScan [] []
  | skip (c : Char) (rest : List Char) (ms : List (List Char × List Char))
      (hc : c ≠ '{') (h : CleanScan rest ms) : CleanScan (c :: rest) ms
  | hit (rest a b r : List Char) (ms : List (List Char × List Char))
      (hm : ∀ t : List Char, tryMatchNodeAt (rest ++ t) = some (a, b, r ++ t))
      (hlen : r.length ≤ rest.length) (h : CleanScan r ms) :
      CleanScan ('{' :: rest) ((a, b) :: ms)
  | miss (rest : List Char) (ms : List (List Char × List Char))
      (hm : ∀ t : List Char, tryMatchNodeAt (rest ++ t) = none)
      (h : CleanScan rest ms) : CleanScan ('{' :: rest) ms

theorem cleanScan_spec {s : List Char} {ms : List (List Char × List Char)}
    (h : CleanScan s ms) :
    ∀ t : List Char, (∀ c ∈ t, c ≠ '{') →
      ∀ fuel : Nat, s.length + t.length ≤ fuel →
        nodeMatchesAux fuel (s ++ t) = ms := by
  induction h with
  | nil =>
    intro t ht fuel _
    rw [List.nil_append]
    exact noBrace_scan fuel t ht
  | skip c rest ms hc hcs ih =>
    intro t ht fuel hf
    simp only [List.length_cons] at hf
    cases fuel with
    | zero => omega
    | succ f =>
      rw [List.cons_append]
      simp only [nodeMatchesAux]
      rw [if_neg hc]
      exact ih t ht f (by omega)
  | hit rest a b r ms hm hlen hcs ih =>
    intro t ht fuel hf
    simp only [List.length_cons] at hf
    cases fuel with
    | zero => omega
    | succ f =>
      rw [List.cons_append]
      simp only [nodeMatchesAux]
      rw [if_pos trivial, hm t]
      show (a, b) :: nodeMatchesAux f (r ++ t) = (a, b) :: ms
      rw [ih t ht f (by omega)]
  | miss rest ms hm hcs ih =>
    intro t ht fuel hf
    simp only [List.length_cons] at hf
    cases fuel with
    | zero => omega
    | succ f =>
      rw [List.cons_append]
      simp only [nodeMatchesAux]
      rw [if_pos trivial, hm t]
      show nodeMatchesAux f (rest ++ t) = ms
      exact ih t ht f (by omega)

theorem cleanScan_skip_many (s1 rest : List Char)
    (ms : List (List Char × List Char)) (h1 : ∀ c ∈ s1, c ≠ '{')
    (h : CleanScan rest ms) : CleanScan (s1 ++ rest) ms := by
  induction s1 with
  | nil => simpa using h
  | cons c cs ih =>
    exact CleanScan.skip c _ _ (h1 c (List.mem_cons_self c cs))
      (ih (fun x hx => h1 x (List.mem_cons_of_mem c hx)))

theorem cleanScan_sJson : CleanScan sJson c1Final := by
  have h4 : CleanScan (sJson.drop 88) [] := by
    have he : sJson.drop 88 = [']', '\x7d'] := rfl
    rw [he]
    exact CleanScan.skip _ _ _ (by decide)
      (CleanScan.skip _ _ _ (by decide) CleanScan.nil)
  have h3 : CleanScan (sJson.drop 57) [("B".data, "dB".data)] := by
    have he : sJson.drop 57 = '\x7b' :: sJson.drop 58 := rfl
    rw [he]
    exact CleanScan.hit _ _ _ _ _ (fun t => rfl) (by decide) h4
  have h2 : CleanScan (sJson.drop 56) [("B".data, "dB".data)] := by
    have he : sJson.drop 56 = ',' :: sJson.drop 57 := rfl
    rw [he]
    exact CleanScan.skip _ _ _ (by decide) h3
  have h1 : CleanScan (sJson.drop 25) c1Final := by
    have he : sJson.drop 25 = '\x7b' :: sJson.drop 26 := rfl
    rw [he]
    exact CleanScan.hit _ _ _ _ _ (fun t => rfl) (by decide) h2
  have h0 : CleanScan (sJson.drop 1) c1Final := by
    have he : sJson.drop 1 = "\"overview\":\"O\",\"nodes\":[".data ++ sJson.drop 25 := rfl
    rw [he]
    exact cleanScan_skip_many _ _ _ (by decide) h1
  have he : sJson = '\x7b' :: sJson.drop 1 := rfl
  rw [he]
  exact CleanScan.miss _ _ (fun t => rfl) h0

/-- Certified first-match run of the overview regex. -/
inductive CleanOv : List Char → Option (List Char) → Prop
  | nil : CleanOv [] none
  | skip (c : Char) (rest : List Char) (r : Option (List Char))
      (hc : c ≠ '"') (h : CleanOv rest r) : CleanOv (c :: rest) r
  | hit (rest content : List Char)
      (hm : ∀ t : List Char, tryMatchOverviewAt (rest ++ t) = some content) :
      CleanOv ('"' :: rest) (some content)
  | miss (rest : List Char) (r : Option (List Char))
      (hm : ∀ t : List Char, tryMatchOverviewAt (rest ++ t) = none)
      (h : CleanOv rest r) : CleanOv ('"' :: rest) r

theorem cleanOv_spec {s : List Char} {r : Option (List Char)}
    (h : CleanOv s r) :
    ∀ t : List Char, (∀ c ∈ t, c ≠ '"') →
      ∀ fuel : Nat, s.length + t.length ≤ fuel →
        overviewMatchAux fuel (s ++ t) = r := by
  induction h with
  | nil =>
    intro t ht fuel _
    rw [List.nil_append]
    exact noQuote_scan fuel t ht
  | skip c rest r hc hcs ih =>
    intro t ht fuel hf
    simp only [List.length_cons] at hf
    cases fuel with
    | zero => omega
    | succ f =>
      rw [List.cons_append]
      simp only [overviewMatchAux]
      rw [if_neg hc]
      exact ih t ht f (by omega)
  | hit rest content hm =>
    intro t ht fuel hf
    simp only [List.length_cons] at hf
    cases fuel with
    | zero => omega
    | succ f =>
      rw [List.cons_append]
      simp only [overviewMatchAux]
      rw [if_pos trivial, hm t]
  | miss rest r hm hcs ih =>
    intro t ht fuel hf
    simp only [List.length_cons] at hf
    cases fuel with
    | zero => omega
    | succ f =>
      rw [List.cons_append]
      simp only [overviewMatchAux]
      rw [if_pos trivial, hm t]
      show overviewMatchAux f (rest ++ t) = r
      exact ih t ht f (by omega)

theorem cleanOv_sJson : CleanOv sJson (some "O".data) := by
  have h0 : CleanOv ('"' :: sJson.drop 2) (some "O".data) :=
    CleanOv.hit _ _ (fun t => rfl)
  have he : sJson = '\x7b' :: '"' :: sJson.drop 2 := rfl
  rw [he]
  exact CleanOv.skip _ _ _ (by decide) h0

theorem nodeMatches_sJson_append (t : List Char) (ht : ∀ c ∈ t, c ≠ '{') :
    nodeMatches (sJson ++ t) = c1Final := by
  have h := cleanScan_spec cleanScan_sJson t ht (sJson ++ t).length
    (le_of_eq (List.length_append _ _).symm)
  exact h

theorem overviewMatch_sJson_append (t : List Char) (ht : ∀ c ∈ t, c ≠ '"') :
    overviewMatch (sJson ++ t) = some "O".data :=
  cleanOv_spec cleanOv_sJson t ht (sJson ++ t).length
    (le_of_eq (List.length_append _ _).symm)

/-!
### `stripJsonFences` on prefixes of a recognized buffer
-/

theorem ws_false_of_head_brace {s : List Char} {c : Char}
    (hhead : s.head? = some '{') (hc : s.head? = some c) : isJsWs c = false := by
  have h5 := hhead.symm.trans hc
  injection h5 with h6
  rw [← h6]
  decide

theorem isJsWs_char_cases {c : Char} (h : isJsWs c = true) :
    c = ' ' ∨ c = '\t' ∨ c = '\n' ∨ c = '\r' ∨ c = '\x0b' ∨ c = '\x0c' := by
  have h2 := h
  simp only [isJsWs, Bool.or_eq_true, decide_eq_true_eq] at h2
  tauto

theorem sJson_head : sJson.head? = some '{' := rfl

theorem sJson_no_ws : ∀ c ∈ sJson, isJsWs c = false := by decide

theorem sJson_no_tick : ∀ c ∈ sJson, c ≠ '`' := by decide

theorem prefix_sJson_head {s : List Char} (hne : s ≠ []) (hp : s <+: sJson) :
    s.head? = some '{' := by
  obtain ⟨u, hu⟩ := hp
  cases s with
  | nil => exact absurd rfl hne
  | cons c cs =>
    have h1 : sJson.head? = some c := by
      rw [← hu]
      rfl
    have h2 := sJson_head.symm.trans h1
    injection h2 with h3
    rw [← h3]
    rfl

theorem prefix_sJson_mem {s : List Char} (hp : s <+: sJson) :
    ∀ c ∈ s, isJsWs c = false ∧ c ≠ '`' := by
  intro c hc
  have hmem : c ∈ sJson := hp.subset hc
  exact ⟨sJson_no_ws c hmem, sJson_no_tick c hmem⟩

theorem prefix_sJson_last {s : List Char} (hp : s <+: sJson) :
    ∀ c, s.getLast? = some c → isJsWs c = false := by
  intro c hc
  have : c ∈ s := by
    rw [← List.head?_reverse] at hc
    exact List.mem_reverse.mp (head_mem hc)
  exact (prefix_sJson_mem hp c this).1

/-- Case `stripJsonFences` sees no leading fence: whitespace, then a
nonempty prefix of the JSON, then whitespace strips to that prefix. -/
theorem strip_bare_mid {w1 trail s : List Char}
    (hw1 : ∀ c ∈ w1, isJsWs c = true) (htrail : ∀ c ∈ trail, isJsWs c = true)
    (hne : s ≠ []) (hhead : s.head? = some '{')
    (hlast : ∀ c, s.getLast? = some c → isJsWs c = false) :
    stripJsonFences (w1 ++ (s ++ trail)) = s := by
  have htrim : trimChars (w1 ++ (s ++ trail)) = s := by
    rw [trimChars_ws_append hw1, trimChars_append_ws htrail]
    exact trimChars_eq_self (fun c hc => ws_false_of_head_brace hhead hc) hlast
  rw [stripJsonFences_eq_stages, htrim]
  unfold stripStage1
  have hn : ¬ ("```".data).isPrefixOf s = true := by
    intro hcon
    have h7 := (ticks_prefix_head hcon).symm.trans hhead
    exact absurd (Option.some.inj h7) (by decide)
  rw [if_neg hn]

theorem toLowerAscii_ws_ne_j {c : Char} (h : isJsWs c = true) :
    toLowerAscii c ≠ 'j' := by
  rcases isJsWs_char_cases h with rfl | rfl | rfl | rfl | rfl | rfl <;> decide

/-- The tag test fails on untagged content whose head is the JSON's `{` or
whitespace. -/
theorem tag_test_false {ws2 core : List Char}
    (hws2 : ∀ c ∈ ws2, isJsWs c = true) (hne : core ≠ [])
    (hhead : core.head? = some '{') :
    ¬ ((ws2 ++ core).take 4).map toLowerAscii = "json".data := by
  intro hcon
  cases hws2c : ws2 with
  | nil =>
    rw [hws2c, List.nil_append] at hcon
    cases hc : core with
    | nil => exact hne hc
    | cons c0 cs0 =>
      have hc0 : c0 = '{' := by
        rw [hc] at hhead
        exact Option.some.inj hhead
      rw [hc, hc0, List.take_succ_cons, List.map_cons] at hcon
      have h8 := congrArg List.head? hcon
      exact absurd (Option.some.inj h8) (by decide)
  | cons cw cws =>
    rw [hws2c, List.cons_append, List.take_succ_cons, List.map_cons] at hcon
    have h8 := congrArg List.head? hcon
    have h9 := Option.some.inj h8
    have hcw : isJsWs cw = true := hws2 cw (by rw [hws2c]; exact List.mem_cons_self _ _)
    exact toLowerAscii_ws_ne_j hcw h9

/-- Case `stripJsonFences` sees a leading fence (with or without a
case-insensitive `json` tag): the result is the core, provided the core
starts with `{`, ends in non-whitespace and does not end in the closing
fence. -/
theorem strip_fenced_gen {w1 tg ws2 core trail : List Char}
    (hw1 : ∀ c ∈ w1, isJsWs c = true)
    (htg : tg = [] ∨ (tg.length = 4 ∧ tg.map toLowerAscii = "json".data))
    (hws2 : ∀ c ∈ ws2, isJsWs c = true)
    (htrail : ∀ c ∈ trail, isJsWs c = true)
    (hne : core ≠ [])
    (hhead : core.head? = some '{')
    (hlast : ∀ c, core.getLast? = some c → isJsWs c = false)
    (hnosuf : ("```".data).isSuffixOf core = false) :
    stripJsonFences (w1 ++ ("```".data ++ (tg ++ (ws2 ++ (core ++ trail))))) = core := by
  have hne2 : ws2 ++ core ≠ [] := fun h => hne (List.append_eq_nil.mp h).2
  have hne3 : tg ++ (ws2 ++ core) ≠ [] := fun h => hne2 (List.append_eq_nil.mp h).2
  have htrim : trimChars (w1 ++ ("```".data ++ (tg ++ (ws2 ++ (core ++ trail)))))
      = "```".data ++ (tg ++ (ws2 ++ core)) := by
    rw [trimChars_ws_append hw1]
    have hassoc : "```".data ++ (tg ++ (ws2 ++ (core ++ trail)))
        = ("```".data ++ (tg ++ (ws2 ++ core))) ++ trail := by
      simp [List.append_assoc]
    rw [hassoc, trimChars_append_ws htrail]
    refine trimChars_eq_self ?_ ?_
    · intro c hc
      have h5 : ("```".data ++ (tg ++ (ws2 ++ core))).head? = some '`' := rfl
      have h6 := h5.symm.trans hc
      injection h6 with h7
      rw [← h7]
      decide
    · intro c hc
      rw [getLast_append_ne_nil hne3, getLast_append_ne_nil hne2,
        getLast_append_ne_nil hne] at hc
      exact hlast c hc
  rw [stripJsonFences_eq_stages, htrim]
  unfold stripStage1
  have hpre : ("```".data).isPrefixOf ("```".data ++ (tg ++ (ws2 ++ core))) = true :=
    List.isPrefixOf_iff_prefix.mpr ⟨_, rfl⟩
  rw [if_pos hpre]
  have hd3 : ("```".data ++ (tg ++ (ws2 ++ core))).drop 3 = tg ++ (ws2 ++ core) := by
    rw [show (3 : Nat) = ("```".data).length from rfl, List.drop_left]
  rw [hd3]
  have hdw : (ws2 ++ core).dropWhile isJsWs = core := by
    rw [dropWhile_ws_append hws2]
    exact dropWhile_eq_self_of_head (fun c hc => ws_false_of_head_brace hhead hc)
  have hcontent : (if ((tg ++ (ws2 ++ core)).take 4).map toLowerAscii = "json".data
      then (tg ++ (ws2 ++ core)).drop 4 else tg ++ (ws2 ++ core)).dropWhile isJsWs
      = core := by
    rcases htg with rfl | ⟨h4, hmap⟩
    · rw [List.nil_append, if_neg (tag_test_false hws2 hne hhead)]
      exact hdw
    · have htake : (tg ++ (ws2 ++ core)).take 4 = tg := by
        rw [← h4, List.take_left]
      have hdrop : (tg ++ (ws2 ++ core)).drop 4 = ws2 ++ core := by
        rw [← h4, List.drop_left]
      rw [if_pos (by rw [htake]; exact hmap), hdrop]
      exact hdw
  rw [hcontent]
  unfold stripStage2
  rw [if_neg (by simp [hnosuf])]
  exact trimChars_eq_self (fun c hc => ws_false_of_head_brace hhead hc) hlast

theorem ticks_not_suffix_ws_tick {X bk : List Char}
    (hX : ∀ c ∈ X, isJsWs c = true) (hbk : bk = ['`'] ∨ bk = ['`', '`']) :
    ("```".data).isSuffixOf (sJson ++ (X ++ bk)) = false := by
  cases hsu : ("```".data).isSuffixOf (sJson ++ (X ++ bk)) with
  | false => rfl
  | true =>
    exfalso
    obtain ⟨p, hp⟩ := List.isSuffixOf_iff_suffix.mp hsu
    have hu := congrArg List.reverse hp
    rw [List.reverse_append, List.reverse_append, List.reverse_append] at hu
    -- hu : "```".reverse ++ p.reverse = (bk.reverse ++ X.reverse) ++ sJson.reverse
    have hhd : ∀ z : List Char, X.reverse ++ sJson.reverse = '`' :: z → False := by
      intro z hz
      cases hXr : X.reverse with
      | nil =>
        rw [hXr, List.nil_append] at hz
        have h3 := congrArg List.head? hz
        have h4 : sJson.reverse.head? = some '\x7d' := by decide
        rw [h4] at h3
        exact absurd (Option.some.inj h3) (by decide)
      | cons xc xcs =>
        rw [hXr, List.cons_append] at hz
        have h3 := congrArg List.head? hz
        have h5 := Option.some.inj h3
        have hxc : isJsWs xc = true := hX xc (List.mem_reverse.mp (by
          rw [hXr]
          exact List.mem_cons_self _ _))
        rw [h5] at hxc
        exact absurd hxc (by decide)
    rcases hbk with rfl | rfl
    · -- bk.reverse = ['`']
      have hu2 : '`' :: ('`' :: ('`' :: p.reverse))
          = '`' :: (X.reverse ++ sJson.reverse) := by
        simpa [List.append_assoc] using hu
      injection hu2 with _ hu3
      exact hhd _ hu3.symm
    · have hu2 : '`' :: ('`' :: ('`' :: p.reverse))
          = '`' :: ('`' :: (X.reverse ++ sJson.reverse)) := by
        simpa [List.append_assoc] using hu
      injection hu2 with _ hu3
      injection hu3 with _ hu4
      exact hhd _ hu4.symm

/-- A partially-received closing fence (one or two backticks) survives the
strip: the result is the JSON plus whitespace plus those backticks. -/
theorem strip_fenced_partial_close {w1 tg ws2 X bk : List Char}
    (hw1 : ∀ c ∈ w1, isJsWs c = true)
    (htg : tg = [] ∨ (tg.length = 4 ∧ tg.map toLowerAscii = "json".data))
    (hws2 : ∀ c ∈ ws2, isJsWs c = true)
    (hX : ∀ c ∈ X, isJsWs c = true)
    (hbk : bk = ['`'] ∨ bk = ['`', '`']) :
    stripJsonFences (w1 ++ ("```".data ++ (tg ++ (ws2 ++ ((sJson ++ (X ++ bk)) ++ [])))))
      = sJson ++ (X ++ bk) := by
  refine strip_fenced_gen hw1 htg hws2 (by intro c hc; exact absurd hc (List.not_mem_nil c))
    ?_ ?_ ?_ ?_
  · intro h
    exact absurd ((List.append_eq_nil.mp h).1) (by decide)
  · rw [head_append_ne_nil (by decide : sJson ≠ [])]
    exact sJson_head
  · intro c hc
    have hbkne : bk ≠ [] := by
      rcases hbk with rfl | rfl <;> decide
    have hXbkne : X ++ bk ≠ [] := fun h => hbkne (List.append_eq_nil.mp h).2
    rw [getLast_append_ne_nil hXbkne, getLast_append_ne_nil hbkne] at hc
    have : c = '`' := by
      rcases hbk with rfl | rfl <;>
        · simp only [List.getLast?] at hc
          exact (Option.some.inj hc).symm
    rw [this]
    decide
  · exact ticks_not_suffix_ws_tick hX hbk

/-- A complete closing fence (with optional whitespace before it and a
possible newline directly before the backticks) strips away entirely. -/
theorem strip_fenced_full_close {w1 tg ws2 X trail : List Char}
    (hw1 : ∀ c ∈ w1, isJsWs c = true)
    (htg : tg = [] ∨ (tg.length = 4 ∧ tg.map toLowerAscii = "json".data))
    (hws2 : ∀ c ∈ ws2, isJsWs c = true)
    (hX : ∀ c ∈ X, isJsWs c = true)
    (htrail : ∀ c ∈ trail, isJsWs c = true) :
    stripJsonFences
      (w1 ++ ("```".data ++ (tg ++ (ws2 ++ ((sJson ++ (X ++ "```".data)) ++ trail)))))
      = sJson := by
  have hcore_ne : sJson ++ (X ++ "```".data) ≠ [] := by
    intro h
    exact absurd ((List.append_eq_nil.mp h).1) (by decide)
  have hne2 : ws2 ++ (sJson ++ (X ++ "```".data)) ≠ [] :=
    fun h => hcore_ne (List.append_eq_nil.mp h).2
  have hne3 : tg ++ (ws2 ++ (sJson ++ (X ++ "```".data))) ≠ [] :=
    fun h => hne2 (List.append_eq_nil.mp h).2
  have hhead : (sJson ++ (X ++ "```".data)).head? = some '{' := by
    rw [head_append_ne_nil (by decide : sJson ≠ [])]
    exact sJson_head
  have htrim : trimChars
      (w1 ++ ("```".data ++ (tg ++ (ws2 ++ ((sJson ++ (X ++ "```".data)) ++ trail)))))
      = "```".data ++ (tg ++ (ws2 ++ (sJson ++ (X ++ "```".data)))) := by
    rw [trimChars_ws_append hw1]
    have hassoc : "```".data ++ (tg ++ (ws2 ++ ((sJson ++ (X ++ "```".data)) ++ trail)))
        = ("```".data ++ (tg ++ (ws2 ++ (sJson ++ (X ++ "```".data))))) ++ trail := by
      simp [List.append_assoc]
    rw [hassoc, trimChars_append_ws htrail]
    refine trimChars_eq_self ?_ ?_
    · intro c hc
      have h5 : ("```".data ++ (tg ++ (ws2 ++ (sJson ++ (X ++ "```".data))))).head?
          = some '`' := rfl
      have h6 := h5.symm.trans hc
      injection h6 with h7
      rw [← h7]
      decide
    · intro c hc
      have hXtick_ne : X ++ "```".data ≠ [] := fun h =>
        absurd ((List.append_eq_nil.mp h).2) (by decide)
      rw [getLast_append_ne_nil hne3, getLast_append_ne_nil hne2,
        getLast_append_ne_nil hcore_ne, getLast_append_ne_nil hXtick_ne,
        getLast_append_ne_nil (by decide : "```".data ≠ ([] : List Char))] at hc
      -- hc : ("```".data).getLast? = some c
      have h8 : ("```".data).getLast? = some '`' := by decide
      have h9 := h8.symm.trans hc
      rw [← Option.some.inj h9]
      decide
  rw [stripJsonFences_eq_stages, htrim]
  unfold stripStage1
  have hpre : ("```".data).isPrefixOf
      ("```".data ++ (tg ++ (ws2 ++ (sJson ++ (X ++ "```".data))))) = true :=
    List.isPrefixOf_iff_prefix.mpr ⟨_, rfl⟩
  rw [if_pos hpre]
  have hd3 : ("```".data ++ (tg ++ (ws2 ++ (sJson ++ (X ++ "```".data))))).drop 3
      = tg ++ (ws2 ++ (sJson ++ (X ++ "```".data))) := by
    rw [show (3 : Nat) = ("```".data).length from rfl, List.drop_left]
  rw [hd3]
  have hdw : (ws2 ++ (sJson ++ (X ++ "```".data))).dropWhile isJsWs
      = sJson ++ (X ++ "```".data) := by
    rw [dropWhile_ws_append hws2]
    exact dropWhile_eq_self_of_head (fun c hc => ws_false_of_head_brace hhead hc)
  have hcontent : (if ((tg ++ (ws2 ++ (sJson ++ (X ++ "```".data)))).take 4).map toLowerAscii
        = "json".data
      then (tg ++ (ws2 ++ (sJson ++ (X ++ "```".data)))).drop 4
      else tg ++ (ws2 ++ (sJson ++ (X ++ "```".data)))).dropWhile isJsWs
      = sJson ++ (X ++ "```".data) := by
    rcases htg with rfl | ⟨h4, hmap⟩
    · rw [List.nil_append, if_neg (tag_test_false hws2 hcore_ne hhead)]
      exact hdw
    · have htake : (tg ++ (ws2 ++ (sJson ++ (X ++ "```".data)))).take 4 = tg := by
        rw [← h4, List.take_left]
      have hdrop : (tg ++ (ws2 ++ (sJson ++ (X ++ "```".data)))).drop 4
          = ws2 ++ (sJson ++ (X ++ "```".data)) := by
        rw [← h4, List.drop_left]
      rw [if_pos (by rw [htake]; exact hmap), hdrop]
      exact hdw
  rw [hcontent]
  unfold stripStage2
  have hsuf : ("```".data).isSuffixOf (sJson ++ (X ++ "```".data)) = true :=
    List.isSuffixOf_iff_suffix.mpr ⟨sJson ++ X, by simp [List.append_assoc]⟩
  rw [if_pos hsuf]
  have hbase : (sJson ++ (X ++ "```".data)).take
      ((sJson ++ (X ++ "```".data)).length - 3) = sJson ++ X := by
    have h1 : sJson ++ (X ++ "```".data) = (sJson ++ X) ++ "```".data := by
      simp [List.append_assoc]
    have h2 : (sJson ++ (X ++ "```".data)).length - 3 = (sJson ++ X).length := by
      rw [h1, List.length_append, show ("```".data).length = 3 from rfl]
      omega
    rw [h2, h1, List.take_left]
  rw [hbase]
  have htrimXfin : ∀ w : List Char, (∀ c ∈ w, isJsWs c = true) →
      trimChars (sJson ++ w) = sJson := by
    intro w hw
    rw [trimChars_append_ws hw]
    decide
  by_cases hnl : sJson ++ X ≠ [] ∧ (sJson ++ X).getLast? = some '\n'
  · rw [if_pos hnl]
    obtain ⟨hne4, hlastnl⟩ := hnl
    have hXne : X ≠ [] := by
      intro hX0
      rw [hX0, List.append_nil] at hlastnl
      have : sJson.getLast? = some '\x7d' := by decide
      rw [this] at hlastnl
      exact absurd (Option.some.inj hlastnl) (by decide)
    have hlen5 : (sJson ++ X).length - 1 = sJson.length + (X.length - 1) := by
      have hx1 : 1 ≤ X.length := by
        cases X with
        | nil => exact absurd rfl hXne
        | cons a l => simp
      simp [List.length_append]
      omega
    rw [hlen5, List.take_append_eq_append_take,
      List.take_of_length_le (by omega : sJson.length ≤ sJson.length + (X.length - 1)),
      show sJson.length + (X.length - 1) - sJson.length = X.length - 1 by omega]
    exact htrimXfin _ (fun c hc => hX c (List.take_subset _ _ hc))
  · rw [if_neg hnl]
    exact htrimXfin _ hX

/-!
### Inversion: buffers that `stripJsonFences` maps to the synthetic JSON
-/

theorem sJson_last : ∀ c, sJson.getLast? = some c → isJsWs c = false :=
  prefix_sJson_last (List.prefix_refl _)

theorem ticks_not_suffix_no_tick {s : List Char} (h : ∀ c ∈ s, c ≠ '`') :
    ("```".data).isSuffixOf s = false := by
  cases hsu : ("```".data).isSuffixOf s with
  | false => rfl
  | true =>
    exfalso
    obtain ⟨p, hp⟩ := List.isSuffixOf_iff_suffix.mp hsu
    have hmem : ('`' : Char) ∈ s := by
      rw [← hp]
      exact List.mem_append.mpr (Or.inr (by decide))
    exact h '`' hmem rfl

theorem tg_junk {tg : List Char}
    (htg : tg = [] ∨ (tg.length = 4 ∧ tg.map toLowerAscii = "json".data)) :
    ∀ c ∈ tg, c ≠ '{' ∧ c ≠ '"' := by
  rcases htg with rfl | ⟨h4, hmap⟩
  · intro c hc
    exact absurd hc (List.not_mem_nil c)
  · intro c hc
    have h2 : toLowerAscii c ∈ "json".data := by
      rw [← hmap]
      exact List.mem_map_of_mem _ hc
    constructor
    · rintro rfl
      exact absurd h2 (by decide)
    · rintro rfl
      exact absurd h2 (by decide)

theorem ws_junk {w : List Char} (hw : ∀ c ∈ w, isJsWs c = true) :
    ∀ c ∈ w, c ≠ '{' ∧ c ≠ '"' := by
  intro c hc
  have h1 := hw c hc
  constructor
  · rintro rfl
    exact absurd h1 (by decide)
  · rintro rfl
    exact absurd h1 (by decide)

theorem trim_eq_core_decomp {q : List Char} (h : trimChars q = sJson)
    (hhead : ∀ c, q.head? = some c → isJsWs c = false) :
    ∃ w4, q = sJson ++ w4 ∧ (∀ c ∈ w4, isJsWs c = true) := by
  obtain ⟨w3, w4, hqw, hw3, hw4⟩ := trim_decomp q
  rw [h] at hqw
  cases hw3c : w3 with
  | nil =>
    rw [hw3c, List.nil_append] at hqw
    exact ⟨w4, hqw, hw4⟩
  | cons c3 cs3 =>
    exfalso
    rw [hw3c] at hqw
    have hq : q.head? = some c3 := by rw [hqw]; rfl
    have h1 := hhead c3 hq
    have hc3 : c3 ∈ w3 := by rw [hw3c]; exact List.mem_cons_self _ _
    exact absurd (h1.symm.trans (hw3 c3 hc3)) (by decide)

theorem fenced_junk {w1 tg ws2 : List Char}
    (hw1 : ∀ c ∈ w1, isJsWs c = true)
    (htg : tg = [] ∨ (tg.length = 4 ∧ tg.map toLowerAscii = "json".data))
    (hws2 : ∀ c ∈ ws2, isJsWs c = true) :
    ∀ c ∈ w1 ++ ("```".data ++ (tg ++ ws2)), c ≠ '{' ∧ c ≠ '"' := by
  intro c hc
  rcases List.mem_append.mp hc with hc | hc
  · exact ws_junk hw1 c hc
  · rcases List.mem_append.mp hc with hc | hc
    · constructor
      · rintro rfl
        exact absurd hc (by decide)
      · rintro rfl
        exact absurd hc (by decide)
    · rcases List.mem_append.mp hc with hc | hc
      · exact tg_junk htg c hc
      · exact ws_junk hws2 c hc

theorem fenced_mid {w1 tg ws2 : List Char}
    (hw1 : ∀ c ∈ w1, isJsWs c = true)
    (htg : tg = [] ∨ (tg.length = 4 ∧ tg.map toLowerAscii = "json".data))
    (hws2 : ∀ c ∈ ws2, isJsWs c = true) :
    ∀ s : List Char, s ≠ [] → s <+: sJson →
      stripJsonFences ((w1 ++ ("```".data ++ (tg ++ ws2))) ++ s) = s := by
  intro s hne hp
  have hform : (w1 ++ ("```".data ++ (tg ++ ws2))) ++ s
      = w1 ++ ("```".data ++ (tg ++ (ws2 ++ (s ++ ([] : List Char))))) := by
    simp [List.append_assoc]
  rw [hform]
  exact strip_fenced_gen hw1 htg hws2 (fun c hc => absurd hc (List.not_mem_nil c))
    hne (prefix_sJson_head hne hp) (prefix_sJson_last hp)
    (ticks_not_suffix_no_tick (fun c hc => (prefix_sJson_mem hp c hc).2))

theorem fenced_tail_ws {w1 tg ws2 : List Char}
    (hw1 : ∀ c ∈ w1, isJsWs c = true)
    (htg : tg = [] ∨ (tg.length = 4 ∧ tg.map toLowerAscii = "json".data))
    (hws2 : ∀ c ∈ ws2, isJsWs c = true)
    {j : List Char} (hjws : ∀ c ∈ j, isJsWs c = true) :
    stripJsonFences ((w1 ++ ("```".data ++ (tg ++ ws2))) ++ (sJson ++ j)) = sJson := by
  have hform : (w1 ++ ("```".data ++ (tg ++ ws2))) ++ (sJson ++ j)
      = w1 ++ ("```".data ++ (tg ++ (ws2 ++ (sJson ++ j)))) := by
    simp [List.append_assoc]
  rw [hform]
  exact strip_fenced_gen hw1 htg hws2 hjws (by decide) sJson_head sJson_last
    (ticks_not_suffix_no_tick sJson_no_tick)

theorem fenced_tail_closed {w1 tg ws2 X w2 : List Char}
    (hw1 : ∀ c ∈ w1, isJsWs c = true)
    (htg : tg = [] ∨ (tg.length = 4 ∧ tg.map toLowerAscii = "json".data))
    (hws2 : ∀ c ∈ ws2, isJsWs c = true)
    (hX : ∀ c ∈ X, isJsWs c = true)
    (hw2 : ∀ c ∈ w2, isJsWs c = true) :
    ∀ j : List Char, j <+: (X ++ ("```".data ++ w2)) →
      stripJsonFences ((w1 ++ ("```".data ++ (tg ++ ws2))) ++ (sJson ++ j)) = sJson ∨
      ∃ t : List Char, (∀ c ∈ t, isJsWs c = true ∨ c = '`') ∧
        stripJsonFences ((w1 ++ ("```".data ++ (tg ++ ws2))) ++ (sJson ++ j))
          = sJson ++ t := by
  intro j hj
  have hjeq : j = (X ++ ("```".data ++ w2)).take j.length :=
    List.prefix_iff_eq_take.mp hj
  rcases le_or_lt j.length X.length with hn | hn
  · left
    have hjX : j = X.take j.length := by
      conv_lhs => rw [hjeq]
      rw [List.take_append_eq_append_take, Nat.sub_eq_zero_of_le hn,
        List.take_zero, List.append_nil]
    refine fenced_tail_ws hw1 htg hws2 ?_
    intro c hc
    rw [hjX] at hc
    exact hX c (List.take_subset _ _ hc)
  · rcases le_or_lt j.length (X.length + 1) with hn2 | hn2
    · right
      have hlen : j.length = X.length + 1 := by omega
      have hjX : j = X ++ ['`'] := by
        rw [hjeq, hlen, List.take_append_eq_append_take,
          List.take_of_length_le (by omega),
          show X.length + 1 - X.length = 1 from by omega]
        rfl
      refine ⟨X ++ ['`'], ?_, ?_⟩
      · intro c hc
        rcases List.mem_append.mp hc with hc | hc
        · exact Or.inl (hX c hc)
        · right
          simpa using hc
      · have hform : (w1 ++ ("```".data ++ (tg ++ ws2))) ++ (sJson ++ j)
            = w1 ++ ("```".data ++ (tg ++ (ws2 ++
                ((sJson ++ (X ++ ['`'])) ++ ([] : List Char))))) := by
          rw [hjX]
          simp [List.append_assoc]
        rw [hform, strip_fenced_partial_close hw1 htg hws2 hX (Or.inl rfl)]
    · rcases le_or_lt j.length (X.length + 2) with hn4 | hn4
      · right
        have hlen : j.length = X.length + 2 := by omega
        have hjX : j = X ++ ['`', '`'] := by
          rw [hjeq, hlen, List.take_append_eq_append_take,
            List.take_of_length_le (by omega),
            show X.length + 2 - X.length = 2 from by omega]
          rfl
        refine ⟨X ++ ['`', '`'], ?_, ?_⟩
        · intro c hc
          rcases List.mem_append.mp hc with hc | hc
          · exact Or.inl (hX c hc)
          · right
            rcases List.mem_cons.mp hc with rfl | hc
            · rfl
            · simpa using hc
        · have hform : (w1 ++ ("```".data ++ (tg ++ ws2))) ++ (sJson ++ j)
              = w1 ++ ("```".data ++ (tg ++ (ws2 ++
                  ((sJson ++ (X ++ ['`', '`'])) ++ ([] : List Char))))) := by
            rw [hjX]
            simp [List.append_assoc]
          rw [hform, strip_fenced_partial_close hw1 htg hws2 hX (Or.inr rfl)]
      · left
        have h3m : ("```".data).length ≤ j.length - X.length := by
          rw [show ("```".data).length = 3 from rfl]
          omega
        have hjX : j = X ++ ("```".data ++ w2.take (j.length - X.length - 3)) := by
          conv_lhs => rw [hjeq]
          rw [List.take_append_eq_append_take,
            List.take_of_length_le (by omega : X.length ≤ j.length),
            List.take_append_eq_append_take, List.take_of_length_le h3m,
            show ("```".data).length = 3 from rfl]
        have hjws : ∀ c ∈ w2.take (j.length - X.length - 3), isJsWs c = true :=
          fun c hc => hw2 c (List.take_subset _ _ hc)
        have hform : (w1 ++ ("```".data ++ (tg ++ ws2))) ++ (sJson ++ j)
            = w1 ++ ("```".data ++ (tg ++ (ws2 ++
                ((sJson ++ (X ++ "```".data)) ++ w2.take (j.length - X.length - 3))))) := by
          rw [hjX]
          simp [List.append_assoc]
        rw [hform]
        exact strip_fenced_full_close hw1 htg hws2 hX hjws

/-- Inversion of `stripJsonFences`: a raw buffer that strips to the
synthetic JSON splits as junk (whitespace, an optional fence and tag), then
the JSON, then junk; and stripping behaves uniformly on the buffer's
prefixes through and after the JSON. -/
theorem strip_eq_decomp (R : List Char) (hR : stripJsonFences R = sJson) :
    ∃ J1 J2 : List Char,
      R = J1 ++ (sJson ++ J2) ∧
      (∀ c ∈ J1, c ≠ '{' ∧ c ≠ '"') ∧
      (∀ s : List Char, s ≠ [] → s <+: sJson → stripJsonFences (J1 ++ s) = s) ∧
      (∀ j : List Char, j <+: J2 →
        stripJsonFences (J1 ++ (sJson ++ j)) = sJson ∨
        ∃ t : List Char, (∀ c ∈ t, isJsWs c = true ∨ c = '`') ∧
          stripJsonFences (J1 ++ (sJson ++ j)) = sJson ++ t) := by
  obtain ⟨w1, w2, hRw, hw1, hw2⟩ := trim_decomp R
  rw [stripJsonFences_eq_stages] at hR
  by_cases hpre : ("```".data).isPrefixOf (trimChars R) = true
  case neg =>
    unfold stripStage1 at hR
    rw [if_neg hpre] at hR
    refine ⟨w1, w2, ?_, ws_junk hw1, ?_, ?_⟩
    · rw [hRw, hR, List.append_assoc]
    · intro s hne hp
      have h := @strip_bare_mid w1 [] s hw1
        (fun c hc => absurd hc (List.not_mem_nil c)) hne
        (prefix_sJson_head hne hp) (prefix_sJson_last hp)
      rwa [List.append_nil] at h
    · intro j hj
      left
      have hjws : ∀ c ∈ j, isJsWs c = true := fun c hc => hw2 c (hj.subset hc)
      exact strip_bare_mid hw1 hjws (by decide) sJson_head sJson_last
  case pos =>
    obtain ⟨u, hu⟩ := List.isPrefixOf_iff_prefix.mp hpre
    unfold stripStage1 at hR
    rw [if_pos hpre, ← hu] at hR
    have hd3 : ("```".data ++ u).drop 3 = u := by
      rw [show (3 : Nat) = ("```".data).length from rfl, List.drop_left]
    rw [hd3] at hR
    rw [← hu] at hRw
    -- hRw : R = w1 ++ ("```".data ++ u) ++ w2
    have main : ∀ tg v : List Char, u = tg ++ v →
        (tg = [] ∨ (tg.length = 4 ∧ tg.map toLowerAscii = "json".data)) →
        stripStage2 (v.dropWhile isJsWs) = sJson →
        ∃ J1 J2 : List Char,
          R = J1 ++ (sJson ++ J2) ∧
          (∀ c ∈ J1, c ≠ '{' ∧ c ≠ '"') ∧
          (∀ s : List Char, s ≠ [] → s <+: sJson →
            stripJsonFences (J1 ++ s) = s) ∧
          (∀ j : List Char, j <+: J2 →
            stripJsonFences (J1 ++ (sJson ++ j)) = sJson ∨
            ∃ t : List Char, (∀ c ∈ t, isJsWs c = true ∨ c = '`') ∧
              stripJsonFences (J1 ++ (sJson ++ j)) = sJson ++ t) := by
      intro tg v huv htg hst
      have hv : v = v.takeWhile isJsWs ++ v.dropWhile isJsWs :=
        (List.takeWhile_append_dropWhile isJsWs v).symm
      have hws2 : ∀ c ∈ v.takeWhile isJsWs, isJsWs c = true :=
        fun c hc => List.mem_takeWhile_imp hc
      have hcontent_head : ∀ c, (v.dropWhile isJsWs).head? = some c →
          isJsWs c = false := fun c hc => head_of_dropWhile hc
      unfold stripStage2 at hst
      by_cases hsuf : ("```".data).isSuffixOf (v.dropWhile isJsWs) = true
      · -- a closing fence is present
        rw [if_pos hsuf] at hst
        obtain ⟨p, hp⟩ := List.isSuffixOf_iff_suffix.mp hsuf
        have hbase : (v.dropWhile isJsWs).take ((v.dropWhile isJsWs).length - 3)
            = p := by
          rw [← hp, List.length_append, show ("```".data).length = 3 from rfl,
            show p.length + 3 - 3 = p.length from by omega, List.take_left]
        rw [hbase] at hst
        have hXex : ∃ X, (∀ c ∈ X, isJsWs c = true) ∧
            v.dropWhile isJsWs = sJson ++ (X ++ "```".data) := by
          by_cases hnl : p ≠ [] ∧ p.getLast? = some '\n'
          · rw [if_pos hnl] at hst
            obtain ⟨hpne, hplast⟩ := hnl
            have hpdec := eq_append_getLast hplast
            have hqne : p.take (p.length - 1) ≠ [] := by
              intro h0
              rw [h0] at hst
              exact absurd hst (by decide)
            have hqhead : ∀ c, (p.take (p.length - 1)).head? = some c →
                isJsWs c = false := by
              intro c hc
              refine hcontent_head c ?_
              rw [← hp]
              conv_lhs => rw [hpdec]
              rw [List.append_assoc, head_append_ne_nil hqne]
              exact hc
            obtain ⟨w4, hq4, hw4⟩ := trim_eq_core_decomp hst hqhead
            refine ⟨w4 ++ ['\n'], ?_, ?_⟩
            · intro c hc
              rcases List.mem_append.mp hc with hc | hc
              · exact hw4 c hc
              · have : c = '\n' := by simpa using hc
                rw [this]
                rfl
            · rw [← hp]
              conv_lhs => rw [hpdec]
              rw [hq4]
              simp [List.append_assoc]
          · rw [if_neg hnl] at hst
            have hpne : p ≠ [] := by
              intro h0
              rw [h0] at hst
              exact absurd hst (by decide)
            have hphead : ∀ c, p.head? = some c → isJsWs c = false := by
              intro c hc
              refine hcontent_head c ?_
              rw [← hp, head_append_ne_nil hpne]
              exact hc
            obtain ⟨w4, hq4, hw4⟩ := trim_eq_core_decomp hst hphead
            refine ⟨w4, hw4, ?_⟩
            · rw [← hp, hq4]
              simp [List.append_assoc]
        obtain ⟨X, hX, hcdec⟩ := hXex
        refine ⟨w1 ++ ("```".data ++ (tg ++ v.takeWhile isJsWs)),
          X ++ ("```".data ++ w2), ?_, fenced_junk hw1 htg hws2, fenced_mid hw1 htg hws2,
          fenced_tail_closed hw1 htg hws2 hX hw2⟩
        rw [hRw, huv]
        conv_lhs => rw [hv, hcdec]
        simp [List.append_assoc]
      · rw [if_neg hsuf] at hst
        have hcne : v.dropWhile isJsWs ≠ [] := by
          intro h0
          rw [h0] at hst
          exact absurd hst (by decide)
        obtain ⟨w4, hq4, hw4⟩ := trim_eq_core_decomp hst hcontent_head
        refine ⟨w1 ++ ("```".data ++ (tg ++ v.takeWhile isJsWs)), w4 ++ w2, ?_,
          fenced_junk hw1 htg hws2, fenced_mid hw1 htg hws2, ?_⟩
        · rw [hRw, huv]
          conv_lhs => rw [hv, hq4]
          simp [List.append_assoc]
        · intro j hj
          left
          have hjws : ∀ c ∈ j, isJsWs c = true := by
            intro c hc
            rcases List.mem_append.mp (hj.subset hc) with hc2 | hc2
            · exact hw4 c hc2
            · exact hw2 c hc2
          exact fenced_tail_ws hw1 htg hws2 hjws
    by_cases htag : (u.take 4).map toLowerAscii = "json".data
    · rw [if_pos htag] at hR
      refine main (u.take 4) (u.drop 4) (List.take_append_drop 4 u).symm
        (Or.inr ⟨?_, htag⟩) hR
      have h5 := congrArg List.length htag
      rw [List.length_map] at h5
      exact h5
    · rw [if_neg htag] at hR
      exact main [] u (List.nil_append u).symm (Or.inl rfl) hR

/-!
### Decidable facts about the bare JSON's prefixes, and the general facts
-/

set_option maxRecDepth 100000 in
theorem core_matches : ∀ m, m ≤ sJson.length →
    nodeMatches (sJson.take m)
      = c1Final.take (nodeMatches (sJson.take m)).length := by decide

set_option maxRecDepth 100000 in
theorem core_step : ∀ m, m < sJson.length →
    (nodeMatches (sJson.take m)).length
      ≤ (nodeMatches (sJson.take (m + 1))).length := by decide

set_option maxRecDepth 100000 in
theorem core_ov : ∀ m, m ≤ sJson.length →
    overviewMatch (sJson.take m) = none ∨
    overviewMatch (sJson.take m) = some "O".data := by decide

theorem nodeMatches_sJson : nodeMatches sJson = c1Final := by decide

theorem overviewMatch_sJson : overviewMatch sJson = some "O".data := by decide

/-- The facts about a raw content `R` that drive the reconciliation
argument: the matches of any stripped prefix form a prefix of the final
match list, the match count grows monotonically, the overview group is
`"O"` whenever it matches, the authoritative parse yields the expected
value, and the full buffer yields both matches.  They are derived below for
every `R` that `stripJsonFences` maps to the synthetic JSON. -/
structure StreamFacts (R : List Char) : Prop where
  matches_prefix : ∀ k < R.length + 1,
    nodeMatches (stripJsonFences (R.take k)) = c1Final.take (c1Count R k)
  count_step : ∀ k < R.length, c1Count R k ≤ c1Count R (k + 1)
  overview_O : ∀ k < R.length + 1,
    overviewMatch (stripJsonFences (R.take k)) = none ∨
    overviewMatch (stripJsonFences (R.take k)) = some "O".data
  parse_final : jsonParse (stripJsonFences R) = some c1ParsedJson
  count_final : c1Count R R.length = 2

/-- The reconciliation facts hold for every raw buffer that
`stripJsonFences` maps to the synthetic JSON: its prefixes strip to junk
without `{`/`"`, to a prefix of the JSON, or to the JSON plus junk, and the
scanners behave accordingly in each region. -/
theorem genStreamFacts {R : List Char} (hR : stripJsonFences R = sJson) :
    StreamFacts R := by
  obtain ⟨J1, J2, hdec, hjunk, hmid, htail⟩ := strip_eq_decomp R hR
  have hRlen : R.length = J1.length + (sJson.length + J2.length) := by
    rw [hdec]
    simp [List.length_append]
  have htake1 : ∀ k, k ≤ J1.length → R.take k = J1.take k := by
    intro k hk
    rw [hdec, List.take_append_eq_append_take, Nat.sub_eq_zero_of_le hk,
      List.take_zero, List.append_nil]
  have htake2 : ∀ k, J1.length ≤ k → k ≤ J1.length + sJson.length →
      R.take k = J1 ++ sJson.take (k - J1.length) := by
    intro k h1 h2
    rw [hdec, List.take_append_eq_append_take, List.take_of_length_le h1,
      List.take_append_eq_append_take,
      Nat.sub_eq_zero_of_le (by omega : k - J1.length ≤ sJson.length),
      List.take_zero, List.append_nil]
  have htake3 : ∀ k, J1.length + sJson.length ≤ k →
      R.take k = J1 ++ (sJson ++ J2.take (k - J1.length - sJson.length)) := by
    intro k h1
    rw [hdec, List.take_append_eq_append_take,
      List.take_of_length_le (by omega : J1.length ≤ k),
      List.take_append_eq_append_take,
      List.take_of_length_le (by omega : sJson.length ≤ k - J1.length)]
  have hA : ∀ k, k ≤ J1.length →
      ∀ c ∈ stripJsonFences (R.take k), c ≠ '{' ∧ c ≠ '"' := by
    intro k hk c hc
    have hsub := (stripJsonFences_sublist (R.take k)).subset hc
    rw [htake1 k hk] at hsub
    exact hjunk c (List.take_subset _ _ hsub)
  have hB : ∀ k, J1.length < k → k ≤ J1.length + sJson.length →
      stripJsonFences (R.take k) = sJson.take (k - J1.length) := by
    intro k h1 h2
    rw [htake2 k (le_of_lt h1) h2]
    refine hmid _ ?_ (List.take_prefix _ _)
    intro h0
    rcases List.take_eq_nil_iff.mp h0 with h | h
    · omega
    · exact absurd h (by decide)
  have hC : ∀ k, J1.length + sJson.length < k → k ≤ R.length →
      stripJsonFences (R.take k) = sJson ∨
      ∃ t, (∀ c ∈ t, isJsWs c = true ∨ c = '`') ∧
        stripJsonFences (R.take k) = sJson ++ t := by
    intro k h1 _
    rw [htake3 k (le_of_lt h1)]
    exact htail _ (List.take_prefix _ _)
  have hjunk_matches : ∀ k, k ≤ J1.length →
      nodeMatches (stripJsonFences (R.take k)) = [] := by
    intro k hk
    exact noBrace_scan _ _ (fun c hc => (hA k hk c hc).1)
  have hg_chars : ∀ t : List Char, (∀ c ∈ t, isJsWs c = true ∨ c = '`') →
      (∀ c ∈ t, c ≠ '{') ∧ (∀ c ∈ t, c ≠ '"') := by
    intro t ht
    refine ⟨?_, ?_⟩ <;> intro c hc <;> rcases ht c hc with h | rfl <;>
      first
        | decide
        | (rintro rfl; exact absurd h (by decide))
  have hcntB_eq : ∀ k, J1.length < k → k ≤ J1.length + sJson.length →
      c1Count R k = (nodeMatches (sJson.take (k - J1.length))).length := by
    intro k h1 h2
    unfold c1Count
    rw [hB k h1 h2]
  have hcntC : ∀ k, J1.length + sJson.length < k → k ≤ R.length →
      c1Count R k = 2 := by
    intro k h1 h2
    unfold c1Count
    rcases hC k h1 h2 with h | ⟨t, ht, h⟩
    · rw [h, nodeMatches_sJson]
      rfl
    · rw [h, nodeMatches_sJson_append t (hg_chars t ht).1]
      rfl
  refine ⟨?_, ?_, ?_, ?_, ?_⟩
  · intro k hk
    have hk' : k ≤ R.length := by omega
    rcases le_or_lt k J1.length with h | h
    · have h0 := hjunk_matches k h
      rw [h0]
      have hz : c1Count R k = 0 := by
        unfold c1Count
        rw [h0]
        rfl
      rw [hz, List.take_zero]
    · rcases le_or_lt k (J1.length + sJson.length) with h2 | h2
      · rw [hB k h h2, hcntB_eq k h h2]
        exact core_matches _ (by omega)
      · rw [hcntC k h2 hk']
        rcases hC k h2 hk' with he | ⟨t, ht, he⟩
        · rw [he, nodeMatches_sJson]
          decide
        · rw [he, nodeMatches_sJson_append t (hg_chars t ht).1]
          decide
  · intro k hk
    rcases le_or_lt k J1.length with h | h
    · have hz : c1Count R k = 0 := by
        unfold c1Count
        rw [hjunk_matches k h]
        rfl
      rw [hz]
      exact Nat.zero_le _
    · rcases le_or_lt (k + 1) (J1.length + sJson.length) with h2 | h2
      · rw [hcntB_eq k h (by omega), hcntB_eq (k + 1) (by omega) h2,
          show k + 1 - J1.length = (k - J1.length) + 1 from by omega]
        exact core_step _ (by omega)
      · rcases le_or_lt k (J1.length + sJson.length) with h3 | h3
        · rw [hcntB_eq k h h3, hcntC (k + 1) (by omega) (by omega)]
          have hkd : J1.length + sJson.length ≤ k + 1 := by omega
          rcases le_or_lt (J1.length + sJson.length) k with h4 | h4
          · rw [show k - J1.length = sJson.length from by omega, List.take_length,
              nodeMatches_sJson]
            decide
          · have hle := core_matches (k - J1.length) (by omega)
            have := congrArg List.length hle
            rw [List.length_take] at this
            omega
        · rw [hcntC k h3 (by omega), hcntC (k + 1) (by omega) (by omega)]
  · intro k hk
    have hk' : k ≤ R.length := by omega
    rcases le_or_lt k J1.length with h | h
    · left
      exact noQuote_scan _ _ (fun c hc => (hA k h c hc).2)
    · rcases le_or_lt k (J1.length + sJson.length) with h2 | h2
      · rw [hB k h h2]
        exact core_ov _ (by omega)
      · right
        rcases hC k h2 hk' with he | ⟨t, ht, he⟩
        · rw [he]
          exact overviewMatch_sJson
        · rw [he]
          exact overviewMatch_sJson_append t (hg_chars t ht).2
  · rw [hR]
    rfl
  · unfold c1Count
    rw [List.take_length, hR, nodeMatches_sJson]
    rfl

/-- Label of the i-th streamed child for the synthetic buffer. -/
def labelAt : Nat → String
  | 0 => "A"
  | 1 => "B"
  | _ => ""

/-- Description of the i-th streamed child for the synthetic buffer. -/
def descAt : Nat → String
  | 0 => "dA"
  | 1 => "dB"
  | _ => ""

/-- The root node with its three stream-mutated data fields set. -/
def rootWith (rootId rootText : String) (rootPos : Pos) (descr : String)
    (isExp : Bool) (err : Option String) : Node :=
  { mkRootNode rootId rootText rootPos with
    data := { (mkRootNode rootId rootText rootPos).data with
      description := descr
      isExpanding := isExp
      error := err } }

/-- The first `n` children the pipeline creates for the synthetic buffer
(`ps` records their — chunking-dependent — positions). -/
def expectedChildren (times : Nat → Nat) (ps : Nat → Pos) (n : Nat) :
    List Node :=
  (List.range n).map (fun i =>
    mkStreamChild (times i) i (labelAt i) (descAt i) (ps i))

/-- The connecting edges of the first `n` children. -/
def expectedEdges (cfg : RootStreamConfig) (rootId : String)
    (times : Nat → Nat) (n : Nat) : List Edge :=
  (List.range n).map (fun i => mkStreamEdge cfg rootId (childIdStr (times i) i))

/-- Invariant of the incremental pass after the last processed prefix had
length `k`: the rendered count equals the match count of that prefix, the
clock counter tracks it, and the graph is the root (with some values in its
three mutable data fields) plus exactly the first `rendered` children and
their edges. -/
def StreamInv (cfg : RootStreamConfig) (rootId rootText : String)
    (rootPos : Pos) (times : Nat → Nat) (R : List Char) (k : Nat)
    (st : RootStreamState) : Prop :=
  st.rendered = c1Count R k ∧
  st.nowIdx = st.rendered ∧
  ∃ (descr : String) (isExp : Bool) (err : Option String) (ps : Nat → Pos),
    st.g = ⟨rootWith rootId rootText rootPos descr isExp err ::
              expectedChildren times ps st.rendered,
            expectedEdges cfg rootId times st.rendered⟩

theorem childIdStr_ne_root {rootId : String}
    (h : strStartsWith rootId "root" = true) (t i : Nat) :
    childIdStr t i ≠ rootId := by
  intro he
  have h' : "root".data.isPrefixOf rootId.data = true := h
  obtain ⟨u, hu⟩ := List.isPrefixOf_iff_prefix.mp h'
  have hd : (childIdStr t i).data.head? = rootId.data.head? := by rw [he]
  have h1 : (childIdStr t i).data.head? = some 'n' := by
    simp [childIdStr, String.data_append]
  have h2 : rootId.data.head? = some 'r' := by
    rw [← hu]
    rfl
  rw [h1, h2] at hd
  exact absurd hd (by decide)

theorem updateNodeDataIfPresent_cons (rootId : String) (root : Node)
    (hr : root.id = rootId) (cs : List Node)
    (hcs : ∀ n ∈ cs, n.id ≠ rootId) (es : List Edge) (f : NodeData → NodeData) :
    updateNodeDataIfPresent ⟨root :: cs, es⟩ rootId f
      = ⟨{ root with data := f root.data } :: cs, es⟩ := by
  unfold updateNodeDataIfPresent
  have hfind : (root :: cs).find? (fun n => n.id = rootId) = some root := by
    simp [List.find?, hr]
  simp only [hfind]
  refine congrArg₂ Graph.mk ?_ rfl
  simp only [List.map_cons, if_pos hr]
  congr 1
  have : ∀ n ∈ cs,
      (if n.id = rootId then { n with data := f root.data } else n) = n := by
    intro n hn
    rw [if_neg (hcs n hn)]
  rw [List.map_congr_left this]
  simp

theorem rootPosOr_cons (rootId : String) (root : Node) (hr : root.id = rootId)
    (cs : List Node) (es : List Edge) :
    rootPosOr ⟨root :: cs, es⟩ rootId = root.position := by
  unfold rootPosOr
  have hfind : (root :: cs).find? (fun n => n.id = rootId) = some root := by
    simp [List.find?, hr]
  simp only [hfind]

theorem expectedChildren_id_ne_root {rootId : String}
    (hroot : strStartsWith rootId "root" = true) (times : Nat → Nat)
    (ps : Nat → Pos) (n : Nat) :
    ∀ m ∈ expectedChildren times ps n, m.id ≠ rootId := by
  intro m hm
  obtain ⟨i, _, rfl⟩ := List.mem_map.mp hm
  exact childIdStr_ne_root hroot _ _

theorem c1Count_le_two {R : List Char} (hf : StreamFacts R) {k : Nat}
    (hk : k ≤ R.length) : c1Count R k ≤ 2 := by
  have h := congrArg List.length (hf.matches_prefix k (by omega))
  rw [List.length_take] at h
  have h' : c1Count R k = min (c1Count R k) c1Final.length := h
  have h2 : c1Final.length = 2 := rfl
  omega

theorem c1Count_mono {R : List Char} (hf : StreamFacts R) {k k' : Nat}
    (h : k ≤ k') (h2 : k' ≤ R.length) : c1Count R k ≤ c1Count R k' := by
  induction k', h using Nat.le_induction with
  | base => exact le_refl _
  | succ m hm ih => exact le_trans (ih (by omega)) (hf.count_step m (by omega))

theorem getD_take {α : Type} (l : List α) (c i : Nat) (d : α) (h : i < c) :
    (l.take c).getD i d = l.getD i d := by
  rw [List.getD_eq_getElem?_getD, List.getD_eq_getElem?_getD,
    List.getElem?_take, if_pos h]

theorem c1Final_getD_label (i : Nat) (h : i < 2) :
    String.mk (unescapeJs (c1Final.getD i ([], [])).1) = labelAt i ∧
    String.mk (unescapeJs (c1Final.getD i ([], [])).2) = descAt i := by
  interval_cases i
  · exact ⟨by decide, by decide⟩
  · exact ⟨by decide, by decide⟩

theorem range_split (a b : Nat) (h : a ≤ b) :
    List.range b = List.range a ++ List.range' a (b - a) := by
  rw [List.range_eq_range', List.range_eq_range']
  have h2 := List.range'_append 0 a (b - a) 1
  simp only [Nat.zero_add, Nat.one_mul] at h2
  calc List.range' 0 b = List.range' 0 (b - a + a) := by rw [Nat.sub_add_cancel h]
    _ = List.range' 0 a ++ List.range' a (b - a) := h2.symm

theorem overviewStage_inv {cfg : RootStreamConfig} {rootId : String}
    {rootText : String} {rootPos : Pos} {times : Nat → Nat} {R : List Char}
    {k : Nat} (hroot : strStartsWith rootId "root" = true)
    {st : RootStreamState}
    (hinv : StreamInv cfg rootId rootText rootPos times R k st)
    (stripped : List Char) :
    StreamInv cfg rootId rootText rootPos times R k
      (overviewStage rootId st stripped) := by
  obtain ⟨hrend, hnow, descr, isExp, err, ps, hg⟩ := hinv
  unfold overviewStage
  by_cases hov : st.overviewSet
  · simp only [if_pos hov]
    exact ⟨hrend, hnow, descr, isExp, err, ps, hg⟩
  · simp only [if_neg hov]
    cases hm : overviewMatch stripped with
    | none => exact ⟨hrend, hnow, descr, isExp, err, ps, hg⟩
    | some ov =>
      dsimp only
      refine ⟨hrend, hnow, String.mk (unescapeJs ov), true, none, ps, ?_⟩
      rw [hg, updateNodeDataIfPresent_cons rootId _ rfl _
        (expectedChildren_id_ne_root hroot times ps st.rendered) _ _]
      rfl

theorem matchStage_inv {R : List Char} (hf : StreamFacts R)
    {cfg : RootStreamConfig} {rootId : String} {rootText : String}
    {rootPos : Pos} {times : Nat → Nat}
    (hroot : strStartsWith rootId "root" = true)
    {k k' : Nat} (hkk : k ≤ k') (hk' : k' ≤ R.length)
    {st : RootStreamState}
    (hinv : StreamInv cfg rootId rootText rootPos times R k st) :
    StreamInv cfg rootId rootText rootPos times R k'
      (matchStage cfg rootId times st (stripJsonFences (R.take k'))) := by
  obtain ⟨hrend, hnow, descr, isExp, err, ps, hg⟩ := hinv
  have hms : nodeMatches (stripJsonFences (R.take k'))
      = c1Final.take (c1Count R k') := hf.matches_prefix k' (by omega)
  have hle2 := c1Count_le_two hf hk'
  have hlen : (nodeMatches (stripJsonFences (R.take k'))).length
      = c1Count R k' := by
    rw [hms, List.length_take]
    have h2 : c1Final.length = 2 := rfl
    omega
  have hmono : c1Count R k ≤ c1Count R k' := c1Count_mono hf hkk hk'
  simp only [matchStage]
  by_cases hgt : st.rendered < (nodeMatches (stripJsonFences (R.take k'))).length
  · simp only [if_pos hgt]
    refine ⟨hlen, by dsimp only; omega, descr, isExp, err,
      (fun i => if i < st.rendered then ps i
        else ⟨rootPos.x + 450,
          rootPos.y + ((i : ℚ)
            - (((max (nodeMatches (stripJsonFences (R.take k'))).length 5 : Nat) : ℚ) - 1) / 2) * 280⟩), ?_⟩
    dsimp only
    rw [hg]
    dsimp only
    rw [rootPosOr_cons rootId _ rfl]
    rw [show (rootWith rootId rootText rootPos descr isExp err).position
      = rootPos from rfl]
    refine congrArg₂ Graph.mk ?_ ?_
    · rw [List.cons_append]
      congr 1
      rw [expectedChildren, expectedChildren,
        range_split st.rendered (nodeMatches (stripJsonFences (R.take k'))).length
          (le_of_lt hgt),
        List.map_append]
      congr 1
      · refine (List.map_congr_left ?_).symm
        intro i hi
        have hilt : i < st.rendered := List.mem_range.mp hi
        rw [if_pos hilt]
      · refine List.map_congr_left ?_
        intro i hi
        rw [List.mem_range'_1] at hi
        obtain ⟨hige, hiub⟩ := hi
        have hilt : i < (nodeMatches (stripJsonFences (R.take k'))).length := by
          omega
        have hi2 : i < 2 := by omega
        have htimes : st.nowIdx + (i - st.rendered) = i := by omega
        have hpay : (nodeMatches (stripJsonFences (R.take k'))).getD i ([], [])
            = c1Final.getD i ([], []) := by
          rw [hms, getD_take]
          omega
        rw [htimes, hpay, if_neg (by omega : ¬ i < st.rendered)]
        obtain ⟨hlab, hdesc⟩ := c1Final_getD_label i hi2
        rw [hlab, hdesc]
    · show expectedEdges cfg rootId times st.rendered ++ _ = _
      rw [expectedEdges, expectedEdges,
        range_split st.rendered (nodeMatches (stripJsonFences (R.take k'))).length
          (le_of_lt hgt),
        List.map_append]
      congr 1
      refine List.map_congr_left ?_
      intro i hi
      rw [List.mem_range'_1] at hi
      obtain ⟨hige, hiub⟩ := hi
      have htimes : st.nowIdx + (i - st.rendered) = i := by omega
      rw [htimes]
  · simp only [if_neg hgt]
    have heq : c1Count R k' = st.rendered := by omega
    exact ⟨by omega, hnow, descr, isExp, err, ps, hg⟩

theorem streamStep_inv {R : List Char} (hf : StreamFacts R)
    {cfg : RootStreamConfig} {rootId : String} {rootText : String}
    {rootPos : Pos} {times : Nat → Nat}
    (hroot : strStartsWith rootId "root" = true)
    {k k' : Nat} (hkk : k ≤ k') (hk' : k' ≤ R.length)
    {st : RootStreamState}
    (hinv : StreamInv cfg rootId rootText rootPos times R k st) :
    StreamInv cfg rootId rootText rootPos times R k'
      (streamStep cfg rootId times st (R.take k')) :=
  matchStage_inv hf hroot hkk hk'
    (overviewStage_inv hroot hinv (stripJsonFences (R.take k')))

theorem streamInv_init (cfg : RootStreamConfig) (rootId rootText : String)
    (rootPos : Pos) (times : Nat → Nat) (R : List Char) :
    StreamInv cfg rootId rootText rootPos times R 0
      ⟨⟨[mkRootNode rootId rootText rootPos], []⟩, 0, false, 0⟩ := by
  refine ⟨?_, rfl, "", true, none, fun _ => ⟨0, 0⟩, ?_⟩
  · rfl
  · rfl

theorem runRootStream_inv {R : List Char} (hf : StreamFacts R)
    {cfg : RootStreamConfig} {rootId : String} {rootText : String}
    {rootPos : Pos} {times : Nat → Nat}
    (hroot : strStartsWith rootId "root" = true) :
    ∀ (ds : List (List Char)) (full : List Char) (st : RootStreamState),
      full ++ ds.flatten = R →
      StreamInv cfg rootId rootText rootPos times R full.length st →
      StreamInv cfg rootId rootText rootPos times R R.length
        (runRootStream cfg rootId times ds st full).1 ∧
      (runRootStream cfg rootId times ds st full).2 = R := by
  intro ds
  induction ds with
  | nil =>
    intro full st hj hinv
    have hfull : full = R := by simpa using hj
    subst hfull
    exact ⟨hinv, rfl⟩
  | cons d ds ih =>
    intro full st hj hinv
    have hfd : (full ++ d) ++ ds.flatten = R := by
      rw [List.append_assoc]
      simpa using hj
    have hpref : full ++ d = R.take (full ++ d).length := by
      conv_rhs => rw [← hfd]
      rw [List.take_left]
    have hk'le : (full ++ d).length ≤ R.length := by
      rw [← hfd]
      simp only [List.length_append]
      omega
    have hkk : full.length ≤ (full ++ d).length := by
      rw [List.length_append]
      omega
    have hstep := streamStep_inv hf hroot hkk hk'le hinv
    have hsame : streamStep cfg rootId times st (R.take (full ++ d).length)
        = streamStep cfg rootId times st (full ++ d) := by
      rw [← hpref]
    rw [hsame] at hstep
    exact ih (full ++ d) (streamStep cfg rootId times st (full ++ d)) hfd hstep

theorem childIdStr_zero_ne_one (t t' : Nat) :
    childIdStr t 0 ≠ childIdStr t' 1 := by
  intro h
  have h0 : (childIdStr t 0).data.getLast? = some '0' := by
    have : (childIdStr t 0).data
        = ("node-" ++ Nat.repr t ++ "-").data ++ ['0'] := rfl
    rw [this, List.getLast?_concat]
  have h1 : (childIdStr t' 1).data.getLast? = some '1' := by
    have : (childIdStr t' 1).data
        = ("node-" ++ Nat.repr t' ++ "-").data ++ ['1'] := rfl
    rw [this, List.getLast?_concat]
  rw [h, h1] at h0
  exact absurd h0 (by decide)

theorem finishRootStream_final {R : List Char} (hf : StreamFacts R)
    {cfg : RootStreamConfig} {rootId : String} {rootText : String}
    {rootPos : Pos} {times : Nat → Nat}
    (hroot : strStartsWith rootId "root" = true)
    {st : RootStreamState}
    (hinv : StreamInv cfg rootId rootText rootPos times R R.length st) :
    ∃ ps : Nat → Pos,
      finishRootStream cfg rootId times st R =
        ⟨[rootWith rootId rootText rootPos "O" false none,
          mkStreamChild (times 0) 0 "A" "dA" (ps 0),
          mkStreamChild (times 1) 1 "B" "dB" (ps 1)],
         [mkStreamEdge cfg rootId (childIdStr (times 0) 0),
          mkStreamEdge cfg rootId (childIdStr (times 1) 1)]⟩ := by
  obtain ⟨hrend, hnow, descr, isExp, err, ps, hg⟩ := hinv
  have hr2 : st.rendered = 2 := by rw [hrend, hf.count_final]
  refine ⟨ps, ?_⟩
  unfold finishRootStream
  rw [hf.parse_final]
  dsimp only
  rw [hg, updateNodeDataIfPresent_cons rootId _ rfl _
    (expectedChildren_id_ne_root hroot times ps st.rendered) _ _]
  rw [hr2]
  split_ifs with hc
  · exact absurd hc (by decide)
  · rfl

/-- **C1.** For every SSE stream whose concatenated content, after
`stripJsonFences` removes any code-fence wrapper (arbitrary surrounding
whitespace, an optional ```` ``` ```` fence with or without a
case-insensitive `json` tag, a complete or missing closing fence), is the
synthetic buffer
`{"overview":"O","nodes":[{"text":"A","description":"dA"},{"text":"B","description":"dB"}]}`,
and for every way of splitting that stream into content deltas, the
root-creation expansion terminates in the state: exactly the root node
(description `"O"`) plus exactly two child nodes labeled `"A"`/`"dA"` and
`"B"`/`"dB"` (only their positions depend on the chunking), each connected
to the root by exactly one edge — the incremental regex pass plus the
authoritative final parse never drop a node and never create a duplicate. -/
theorem rootStream_reconciliation (cfg : RootStreamConfig)
    (rootId rootText : String) (rootPos : Pos) (times : Nat → Nat)
    (deltas : List (List Char))
    (hroot : strStartsWith rootId "root" = true)
    (hjoin : stripJsonFences deltas.flatten = sJson) :
    ∃ p0 p1 : Pos,
      expandRootFromStream cfg rootId rootText rootPos times deltas =
        ⟨[rootWith rootId rootText rootPos "O" false none,
          mkStreamChild (times 0) 0 "A" "dA" p0,
          mkStreamChild (times 1) 1 "B" "dB" p1],
         [mkStreamEdge cfg rootId (childIdStr (times 0) 0),
          mkStreamEdge cfg rootId (childIdStr (times 1) 1)]⟩ ∧
      ((expandRootFromStream cfg rootId rootText rootPos times deltas).nodes.filter
        (fun n => n.data.type = "root")).map (fun n => n.data.description)
        = ["O"] ∧
      ((expandRootFromStream cfg rootId rootText rootPos times deltas).nodes.filter
        (fun n => n.data.type = "child")).map
          (fun n => (n.data.label, n.data.description))
        = [("A", "dA"), ("B", "dB")] ∧
      ∀ c ∈ (expandRootFromStream cfg rootId rootText rootPos times deltas).nodes.filter
          (fun n => n.data.type = "child"),
        ((expandRootFromStream cfg rootId rootText rootPos times deltas).edges.filter
          (fun e => e.source = rootId ∧ e.target = c.id)).length = 1 := by
  have main : ∀ R : List Char, StreamFacts R → deltas.flatten = R →
      ∃ p0 p1 : Pos,
        expandRootFromStream cfg rootId rootText rootPos times deltas =
          ⟨[rootWith rootId rootText rootPos "O" false none,
            mkStreamChild (times 0) 0 "A" "dA" p0,
            mkStreamChild (times 1) 1 "B" "dB" p1],
           [mkStreamEdge cfg rootId (childIdStr (times 0) 0),
            mkStreamEdge cfg rootId (childIdStr (times 1) 1)]⟩ := by
    intro R hf hR
    unfold expandRootFromStream
    have hinit := streamInv_init cfg rootId rootText rootPos times R
    have hrun := runRootStream_inv hf hroot deltas []
      ⟨⟨[mkRootNode rootId rootText rootPos], []⟩, 0, false, 0⟩
      (by simpa using hR) hinit
    obtain ⟨hinv, hraw⟩ := hrun
    dsimp only
    rw [hraw]
    obtain ⟨ps, heq⟩ := finishRootStream_final hf hroot hinv
    exact ⟨ps 0, ps 1, heq⟩
  have hmain : ∃ p0 p1 : Pos,
      expandRootFromStream cfg rootId rootText rootPos times deltas =
        ⟨[rootWith rootId rootText rootPos "O" false none,
          mkStreamChild (times 0) 0 "A" "dA" p0,
          mkStreamChild (times 1) 1 "B" "dB" p1],
         [mkStreamEdge cfg rootId (childIdStr (times 0) 0),
          mkStreamEdge cfg rootId (childIdStr (times 1) 1)]⟩ :=
    main deltas.flatten (genStreamFacts hjoin) rfl
  obtain ⟨p0, p1, heq⟩ := hmain
  have htype_root : (rootWith rootId rootText rootPos "O" false none).data.type
      = "root" := rfl
  have htype_c0 : (mkStreamChild (times 0) 0 "A" "dA" p0).data.type
      = "child" := rfl
  have htype_c1 : (mkStreamChild (times 1) 1 "B" "dB" p1).data.type
      = "child" := rfl
  refine ⟨p0, p1, heq, ?_, ?_, ?_⟩
  · rw [heq]
    simp [List.filter, htype_root, htype_c0, htype_c1, rootWith, mkRootNode,
      mkStreamChild]
  · rw [heq]
    simp [List.filter, htype_root, htype_c0, htype_c1, rootWith, mkRootNode,
      mkStreamChild]
  · rw [heq]
    intro c hc
    simp only [List.mem_filter, List.mem_cons, List.not_mem_nil, or_false] at hc
    obtain ⟨hmem, hty⟩ := hc
    have hne := childIdStr_zero_ne_one (times 0) (times 1)
    rcases hmem with rfl | rfl | rfl
    · exact absurd (of_decide_eq_true hty) (by simp [rootWith, mkRootNode])
    · simp [mkStreamEdge, mkStreamChild, hne.symm]
    · simp [mkStreamEdge, mkStreamChild, hne]

theorem rootStream_reconciliation_witness :
    ((expandRootFromStream {} "root-1" "seed" ⟨0, 0⟩ (fun k => k)
        ["```JSON\n ".data, sJson.take 40, sJson.drop 40, " \n``".data,
         "`".data]).nodes.filter (fun n => n.data.type = "child")).map
      (fun n => (n.data.label, n.data.description))
      = [("A", "dA"), ("B", "dB")] := by
  obtain ⟨p0, p1, heq, h1, h2, h3⟩ :=
    rootStream_reconciliation {} "root-1" "seed" ⟨0, 0⟩ (fun k => k)
      ["```JSON\n ".data, sJson.take 40, sJson.drop 40, " \n``".data, "`".data]
      (by decide) (by decide)
  exact h2

/-!
## Forest invariant for the pipeline's mutation operations (C2)

The transition system below models the graph mutations of the expansion
pipeline at the level of atomic operations: root creation (`setNodes([])` +
`addNodes(root)`), child creation with a connecting edge from an existing
parent to the fresh child (covering streamed children, final-parse backfill
and follow-up children — the source derives the fresh ids from `Date.now()`
and a running index), and `deleteNode` with its cascade.
-/

/-- Number of incoming edges of a node id. -/
def incomingCount (g : Graph) (id : String) : Nat :=
  (g.edges.filter (fun e => e.target = id)).length

/-- Graph states reachable from an empty canvas through the pipeline's
mutation operations. -/
inductive Reachable : Graph → Prop
  | empty : Reachable ⟨[], []⟩
  | rootCreate (g : Graph) (h : Reachable g) (root : Node)
      (hroot : root.data.type = "root") : Reachable ⟨[root], []⟩
  | addChild (g : Graph) (h : Reachable g) (parentId : String) (child : Node)
      (edge : Edge)
      (hparent : parentId ∈ g.nodes.map Node.id)
      (hfresh : child.id ∉ g.nodes.map Node.id)
      (hctype : child.data.type = "child")
      (hsrc : edge.source = parentId)
      (htgt : edge.target = child.id) :
      Reachable ⟨g.nodes ++ [child], g.edges ++ [edge]⟩
  | delete (g : Graph) (h : Reachable g) (nodeId : String) :
      Reachable (deleteNode g nodeId)

/-- `x` strictly precedes `y` in the duplicate-free list `l`. -/
def Before (l : List String) (x y : String) : Prop :=
  ∃ a b : List String, l = a ++ b ∧ x ∈ a ∧ y ∈ b

/-- An edge respects creation order: its source id appears strictly before
its target id in the node list (both therefore exist). -/
def edgeSplit (g : Graph) (e : Edge) : Prop :=
  Before (g.nodes.map Node.id) e.source e.target

/-- The inductive invariant: unique ids, creation-ordered edges, no incoming
edge on roots, exactly one incoming edge elsewhere. -/
def GraphInv (g : Graph) : Prop :=
  (g.nodes.map Node.id).Nodup ∧
  (∀ e ∈ g.edges, edgeSplit g e) ∧
  (∀ n ∈ g.nodes, n.data.type = "root" → incomingCount g n.id = 0) ∧
  (∀ n ∈ g.nodes, n.data.type ≠ "root" → incomingCount g n.id = 1)

theorem before_irrefl {l : List String} (hnd : l.Nodup) (x : String) :
    ¬ Before l x x := by
  rintro ⟨a, b, hl, hxa, hxb⟩
  rw [hl] at hnd
  exact List.disjoint_of_nodup_append hnd hxa hxb

theorem before_trans {l : List String} (hnd : l.Nodup) {x y z : String}
    (h1 : Before l x y) (h2 : Before l y z) : Before l x z := by
  obtain ⟨a1, b1, hl1, hxa1, hyb1⟩ := h1
  obtain ⟨a2, b2, hl2, hya2, hzb2⟩ := h2
  have hp1 : a1 <+: l := ⟨b1, hl1.symm⟩
  have hp2 : a2 <+: l := ⟨b2, hl2.symm⟩
  rcases List.prefix_or_prefix_of_prefix hp1 hp2 with hpp | hpp
  · obtain ⟨c, hc⟩ := hpp
    refine ⟨a2, b2, hl2, ?_, hzb2⟩
    rw [← hc]
    exact List.mem_append.mpr (Or.inl hxa1)
  · obtain ⟨c, hc⟩ := hpp
    exfalso
    have hya1 : y ∈ a1 := by
      rw [← hc]
      exact List.mem_append.mpr (Or.inl hya2)
    rw [hl1] at hnd
    exact List.disjoint_of_nodup_append hnd hya1 hyb1

theorem reachNE_before {g : Graph} (hnd : (g.nodes.map Node.id).Nodup)
    (hsplit : ∀ e ∈ g.edges, edgeSplit g e) {x y : String}
    (h : ReachNE g.edges x y) : Before (g.nodes.map Node.id) x y := by
  induction h with
  | single e he hs ht => exact hs ▸ ht ▸ hsplit e he
  | tail h e he hs ht ih =>
    exact before_trans hnd ih (hs ▸ ht ▸ hsplit e he)

theorem graphInv_no_cycle {g : Graph} (hinv : GraphInv g) (x : String) :
    ¬ ReachNE g.edges x x := fun h =>
  before_irrefl hinv.1 x (reachNE_before hinv.1 hinv.2.1 h)

theorem getDescendantIds_closed (edges : List Edge) (nodeId : String) :
    ∀ x, (x = nodeId ∨ x ∈ getDescendantIds edges nodeId) →
      ∀ e ∈ edges, e.source = x → e.target ∈ getDescendantIds edges nodeId := by
  have h := descLoop_invariant edges nodeId [] [nodeId]
    List.nodup_nil (by simp) (by simp)
    (by
      intro x hx hxs
      rcases hx with rfl | hx
      · exact absurd (List.mem_singleton.mpr rfl) hxs
      · exact absurd hx (List.not_mem_nil x))
  exact h.2.2.2

theorem removeNodesOp_nil (g : Graph) : removeNodesOp g [] = g := by
  unfold removeNodesOp
  refine congrArg₂ Graph.mk ?_ ?_
  · refine List.filter_eq_self.mpr ?_
    intro n _
    simp
  · refine List.filter_eq_self.mpr ?_
    intro e _
    simp

theorem removeNodesOp_comp (g : Graph) (A B : List String) :
    removeNodesOp (removeNodesOp g A) B = removeNodesOp g (A ++ B) := by
  unfold removeNodesOp
  refine congrArg₂ Graph.mk ?_ ?_
  · rw [List.filter_filter]
    refine List.filter_congr ?_
    intro n _
    simp [not_or, Bool.and_comm]
  · rw [List.filter_filter]
    refine List.filter_congr ?_
    intro e _
    simp [not_or, Bool.and_comm, Bool.and_left_comm, Bool.and_assoc]

theorem removeDescendants_eq (g : Graph) (nodeId : String) :
    removeDescendants g nodeId
      = removeNodesOp g (getDescendantIds g.edges nodeId) := by
  unfold removeDescendants
  by_cases h : (getDescendantIds g.edges nodeId).length > 0
  · rw [if_pos h]
  · rw [if_neg h]
    have : getDescendantIds g.edges nodeId = [] := by
      cases hx : getDescendantIds g.edges nodeId with
      | nil => rfl
      | cons a l => rw [hx] at h; simp at h
    rw [this, removeNodesOp_nil]

theorem filter_map_id (nodes : List Node) (S : List String) :
    (nodes.filter (fun n => n.id ∉ S)).map Node.id
      = (nodes.map Node.id).filter (fun x => x ∉ S) := by
  induction nodes with
  | nil => rfl
  | cons n ns ih =>
    by_cases h : n.id ∈ S
    · simp [List.filter_cons, h]
      simpa using ih
    · simp [List.filter_cons, h]
      simpa using ih

theorem graphInv_addChild {g : Graph} (hinv : GraphInv g) {parentId : String}
    {child : Node} {edge : Edge}
    (hparent : parentId ∈ g.nodes.map Node.id)
    (hfresh : child.id ∉ g.nodes.map Node.id)
    (hctype : child.data.type = "child")
    (hsrc : edge.source = parentId) (htgt : edge.target = child.id) :
    GraphInv ⟨g.nodes ++ [child], g.edges ++ [edge]⟩ := by
  obtain ⟨hnd, hsplit, hroot0, hnr1⟩ := hinv
  have hidmap : (g.nodes ++ [child]).map Node.id
      = g.nodes.map Node.id ++ [child.id] := by
    rw [List.map_append]
    rfl
  have htgt_in : ∀ e ∈ g.edges, e.target ∈ g.nodes.map Node.id := by
    intro e he
    obtain ⟨a, b, hab, _, htb⟩ := hsplit e he
    rw [hab]
    exact List.mem_append.mpr (Or.inr htb)
  have hcount : ∀ x : String,
      incomingCount ⟨g.nodes ++ [child], g.edges ++ [edge]⟩ x
        = incomingCount g x + (if edge.target = x then 1 else 0) := by
    intro x
    show ((g.edges ++ [edge]).filter (fun e => e.target = x)).length = _
    rw [List.filter_append, List.length_append]
    congr 1
    by_cases hx : edge.target = x
    · simp [hx]
    · simp [hx]
  refine ⟨?_, ?_, ?_, ?_⟩
  · rw [hidmap]
    refine List.Nodup.append hnd (List.nodup_singleton _) ?_
    intro x hx hx'
    rw [List.mem_singleton] at hx'
    exact hfresh (hx' ▸ hx)
  · intro e he
    rcases List.mem_append.mp he with he | he
    · obtain ⟨a, b, hab, hsa, htb⟩ := hsplit e he
      exact ⟨a, b ++ [child.id],
        by rw [hidmap, hab, List.append_assoc], hsa,
        List.mem_append.mpr (Or.inl htb)⟩
    · rw [List.mem_singleton] at he
      subst he
      refine ⟨g.nodes.map Node.id, [child.id], hidmap, hsrc ▸ hparent, ?_⟩
      rw [htgt]
      exact List.mem_singleton.mpr rfl
  · intro n hn hty
    rcases List.mem_append.mp hn with hn | hn
    · rw [hcount]
      have hne : edge.target ≠ n.id := by
        rw [htgt]
        intro hc
        exact hfresh (hc ▸ List.mem_map_of_mem Node.id hn)
      rw [if_neg hne, hroot0 n hn hty]
    · rw [List.mem_singleton] at hn
      subst hn
      rw [hctype] at hty
      exact absurd hty (by decide)
  · intro n hn hty
    rcases List.mem_append.mp hn with hn | hn
    · rw [hcount]
      have hne : edge.target ≠ n.id := by
        rw [htgt]
        intro hc
        exact hfresh (hc ▸ List.mem_map_of_mem Node.id hn)
      rw [if_neg hne, hnr1 n hn hty]
    · rw [List.mem_singleton] at hn
      subst hn
      rw [hcount, if_pos htgt]
      have h0 : incomingCount g n.id = 0 := by
        unfold incomingCount
        rw [List.length_eq_zero]
        rw [List.filter_eq_nil]
        intro e he
        simp only [decide_eq_true_eq]
        intro hc
        exact hfresh (hc ▸ htgt_in e he)
      rw [h0]

theorem graphInv_removeNodes {g : Graph} (hinv : GraphInv g) (S : List String)
    (hclosed : ∀ e ∈ g.edges, e.source ∈ S → e.target ∈ S) :
    GraphInv (removeNodesOp g S) := by
  obtain ⟨hnd, hsplit, hroot0, hnr1⟩ := hinv
  have hidmap : (removeNodesOp g S).nodes.map Node.id
      = (g.nodes.map Node.id).filter (fun x => x ∉ S) :=
    filter_map_id g.nodes S
  have hkey : ∀ x : String, x ∉ S →
      incomingCount (removeNodesOp g S) x = incomingCount g x := by
    intro x hxS
    show ((g.edges.filter (fun e => e.source ∉ S ∧ e.target ∉ S)).filter
        (fun e => e.target = x)).length
      = ((g.edges.filter (fun e => e.target = x))).length
    rw [List.filter_filter]
    congr 1
    refine List.filter_congr ?_
    intro e he
    by_cases htx : e.target = x
    · have hsS : e.source ∉ S := fun hs => hxS (htx ▸ hclosed e he hs)
      have htS : e.target ∉ S := htx ▸ hxS
      simp [htx, hsS, htS, hxS]
    · simp [htx]
  refine ⟨?_, ?_, ?_, ?_⟩
  · rw [hidmap]
    exact hnd.filter _
  · intro e he
    have he' : e ∈ g.edges.filter (fun e => e.source ∉ S ∧ e.target ∉ S) := he
    obtain ⟨heg, hcond⟩ := List.mem_filter.mp he'
    have hcond' : e.source ∉ S ∧ e.target ∉ S := of_decide_eq_true hcond
    obtain ⟨a, b, hab, hsa, htb⟩ := hsplit e heg
    refine ⟨a.filter (fun x => x ∉ S), b.filter (fun x => x ∉ S), ?_, ?_, ?_⟩
    · rw [hidmap, hab, List.filter_append]
    · exact List.mem_filter.mpr ⟨hsa, decide_eq_true hcond'.1⟩
    · exact List.mem_filter.mpr ⟨htb, decide_eq_true hcond'.2⟩
  · intro n hn hty
    have hn' : n ∈ g.nodes.filter (fun n => n.id ∉ S) := hn
    obtain ⟨hng, hcond⟩ := List.mem_filter.mp hn'
    rw [hkey n.id (of_decide_eq_true hcond)]
    exact hroot0 n hng hty
  · intro n hn hty
    have hn' : n ∈ g.nodes.filter (fun n => n.id ∉ S) := hn
    obtain ⟨hng, hcond⟩ := List.mem_filter.mp hn'
    rw [hkey n.id (of_decide_eq_true hcond)]
    exact hnr1 n hng hty

theorem graphInv_delete {g : Graph} (hinv : GraphInv g) (nodeId : String) :
    GraphInv (deleteNode g nodeId) := by
  unfold deleteNode
  cases hfind : g.nodes.find? (fun n => n.id = nodeId) with
  | none => exact hinv
  | some node =>
    dsimp only
    by_cases hguard : node.data.type = "root" ∨ strStartsWith node.id "root"
    · rw [if_pos hguard]
      exact hinv
    · rw [if_neg hguard]
      rw [removeDescendants_eq, removeNodesOp_comp]
      refine graphInv_removeNodes hinv _ ?_
      intro e he hsrc
      have hde : e.target ∈ getDescendantIds g.edges nodeId := by
        rcases List.mem_append.mp hsrc with h | h
        · exact getDescendantIds_closed g.edges nodeId e.source (Or.inr h) e he rfl
        · rw [List.mem_singleton] at h
          exact getDescendantIds_closed g.edges nodeId e.source (Or.inl h) e he rfl
      exact List.mem_append.mpr (Or.inl hde)

theorem reachable_graphInv {g : Graph} (h : Reachable g) : GraphInv g := by
  induction h with
  | empty =>
    refine ⟨List.nodup_nil, ?_, ?_, ?_⟩
    · intro e he
      exact absurd he (List.not_mem_nil e)
    · intro n hn _
      exact absurd hn (List.not_mem_nil n)
    · intro n hn _
      exact absurd hn (List.not_mem_nil n)
  | rootCreate g hr root hroot ih =>
    refine ⟨List.nodup_singleton _, ?_, ?_, ?_⟩
    · intro e he
      exact absurd he (List.not_mem_nil e)
    · intro n hn hty
      rfl
    · intro n hn hty
      rw [List.mem_singleton] at hn
      exact absurd (hn ▸ hroot) hty
  | addChild g hr parentId child edge hparent hfresh hctype hsrc htgt ih =>
    exact graphInv_addChild ih hparent hfresh hctype hsrc htgt
  | delete g hr nodeId ih =>
    exact graphInv_delete ih nodeId

/-- **C2.** Forest invariant: every graph state reachable from an empty
canvas through the pipeline's mutation operations (clearing to a fresh root,
adding a streamed / backfilled / follow-up child with a fresh id and its one
parent edge, and `deleteNode` with its descendant cascade) has pairwise
distinct node ids, every non-root node has exactly one incoming edge, and no
node can reach itself by a non-empty walk along outgoing edges (no cycle). -/
theorem pipeline_forest_invariant (g : Graph) (h : Reachable g) :
    (g.nodes.map Node.id).Nodup ∧
    (∀ n ∈ g.nodes, n.data.type ≠ "root" → incomingCount g n.id = 1) ∧
    (∀ x : String, ¬ ReachNE g.edges x x) := by
  have hinv := reachable_graphInv h
  exact ⟨hinv.1, hinv.2.2.2, fun x => graphInv_no_cycle hinv x⟩

def nodeR : Node :=
  { id := "root-1"
    position := ⟨0, 0⟩
    data := { type := "root" } }

def nodeC : Node :=
  { id := "node-5-0"
    position := ⟨0, 0⟩
    data := { type := "child" } }

def edgeRC : Edge :=
  { id := "edge-root-1-node-5-0"
    source := "root-1"
    target := "node-5-0" }

theorem pipeline_forest_invariant_witness :
    incomingCount ⟨[nodeR] ++ [nodeC], [] ++ [edgeRC]⟩ "node-5-0" = 1 ∧
    (([nodeR] ++ [nodeC]).map Node.id).Nodup := by
  have h0 : Reachable ⟨[nodeR], []⟩ :=
    Reachable.rootCreate ⟨[], []⟩ Reachable.empty nodeR rfl
  have h1 : Reachable ⟨[nodeR] ++ [nodeC], [] ++ [edgeRC]⟩ :=
    Reachable.addChild ⟨[nodeR], []⟩ h0 "root-1" nodeC edgeRC
      (by decide) (by decide) rfl rfl rfl
  have h2 := pipeline_forest_invariant ⟨[nodeR] ++ [nodeC], [] ++ [edgeRC]⟩ h1
  exact ⟨h2.2.1 nodeC (by simp) (by decide), h2.1⟩

end ThinkFlow
